import Mathlib

/-!
Verification development for the tycho-l2 proof-chain builder and proof storage.

The Rust sources are shallowly embedded: pure cell transforms become Lean
functions over a small cell model, the storage ingest/read paths become
explicit state passing over a batch-op model, machine integers become `Nat`
(respectively `Int` for signed workchains) with explicit bounds where
overflow matters.  Calls into the external cell library (`everscale_types`:
usage trees, `MerkleProof::create`, TLB parsing, BOC codecs, ed25519, TL
hashing) are abstract parameters of the embedded functions, mirroring the
spec's statement that the cell/Merkle primitives are an external collaborator
whose contract alone matters.
-/

namespace TychoL2

/-! ## Basic machine arithmetic -/

/-- Maximum value of a `u64`. -/
def U64MAX : Nat := 18446744073709551615

/-- Semantics of `u64::checked_add`. -/
def checkedAdd (a b : Nat) : Option Nat :=
  if a + b ≤ U64MAX then some (a + b) else none

/-- Semantics of `u64::checked_mul`. -/
def checkedMul (a b : Nat) : Option Nat :=
  if a * b ≤ U64MAX then some (a * b) else none

/-- Big-endian byte encoding of `v` (wrapping modulo `256 ^ len`), `len` bytes.
Models `to_be_bytes` of the corresponding unsigned integer type. -/
def beBytes : Nat → Nat → List Nat
  | 0, _ => []
  | n + 1, v => beBytes n (v / 256) ++ [v % 256]

/-- Two's-complement byte of an `i8` value (the Rust `as u8` cast). -/
def i8Byte (w : Int) : Nat := (w % 256).toNat

/-- Whether an `i32` workchain fits in `i8` (`try_into::<i8>().is_ok()`). -/
def fitsI8 (w : Int) : Bool := -128 ≤ w && w ≤ 127

/-! ## Errors

Error kinds from `everscale_types::error::Error` used by the embedded code,
plus `anyhow` string errors used by the storage layer. -/

inductive Err where
  | invalidTag
  | cellUnderflow
  | cellOverflow
  | invalidData
  | invalidSignature
  | intOverflow
  | emptyProof
  | cancelled
  | anyhow (msg : String)
deriving Repr, DecidableEq

/-! ## Cell model

Cells are data segments plus child references; the only exotic cell the
embedded code constructs directly is a Merkle-proof cell carrying a hash, a
depth and one child.  Representation hash and depth of the external cell
library are abstract `Cell → Nat` parameters wherever the code consults them. -/

inductive Seg where
  | u256 (v : Nat)
  | u32 (v : Nat)
deriving Repr, DecidableEq

/-- Bit width of a stored data segment. -/
def Seg.bits : Seg → Nat
  | .u256 _ => 256
  | .u32 _ => 32

inductive Cell where
  | ordinary (data : List Seg) (refs : List Cell)
  | merkleProof (hash : Nat) (depth : Nat) (child : Cell)
deriving Repr

/-- Semantics of a `CellBuilder` holding `data` and `refs` being built: the
builder fails (`CellOverflow`, raised by the corresponding `store_*` call in
the source) when over 4 references or over 1023 data bits. -/
def cbBuild (data : List Seg) (refs : List Cell) : Except Err Cell :=
  if refs.length ≤ 4 ∧ (data.map Seg.bits).sum ≤ 1023 then
    .ok (.ordinary data refs)
  else .error .cellOverflow

/-! ## make_proof_chain

Embeds `make_proof_chain` from src/util/src/block/mod.rs lines 247-303 (an
identical copy lives in src/proof-api-l2/src/storage/block.rs lines 56-112). -/

/-- The triplet-packing loop of `make_proof_chain` (`for _ in 0..(remaining / 3)`),
consuming the reversed tail of the shard-proof list three at a time.  After the
`take (remaining % 3)` step the argument length is divisible by 3, so the
fall-through case is never reached with one or two leftover cells. -/
def packTriples : List Cell → Option Cell → Except Err (Option Cell)
  | a :: b :: c :: t, child =>
    match cbBuild [] ([c, b, a] ++ child.toList) with
    | .error e => .error e
    | .ok cell => packTriples t (some cell)
  | _, child => .ok child

/-- Embeds `make_proof_chain`: stores 256 bits of `mc_file_hash` and 32 bits of
`vset_utime_since`, then references `mc_block`, `signatures`, the first shard
block if any, and the triplet-packed chain of the remaining shard blocks in
reverse order; finally wraps everything in a Merkle-proof exotic cell. -/
def makeProofChain (hash depth : Cell → Nat) (mcFileHash : Nat) (mcBlock : Cell)
    (shardBlocks : List Cell) (vsetUtimeSince : Nat) (signatures : Cell) :
    Except Err Cell :=
  let d : List Seg := [.u256 mcFileHash, .u32 vsetUtimeSince]
  let refsE : Except Err (List Cell) :=
    match shardBlocks with
    | [] => .ok [mcBlock, signatures]
    | sc0 :: rest =>
      let rv := rest.reverse
      let r := rv.length % 3
      let child0E : Except Err (Option Cell) :=
        if r ≠ 0 then
          match cbBuild [] (rv.take r) with
          | .error e => .error e
          | .ok c => .ok (some c)
        else .ok none
      match child0E with
      | .error e => .error e
      | .ok child0 =>
        match packTriples (rv.drop r) child0 with
        | .error e => .error e
        | .ok child => .ok ([mcBlock, signatures, sc0] ++ child.toList)
  match refsE with
  | .error e => .error e
  | .ok refs =>
    match cbBuild d refs with
    | .error e => .error e
    | .ok cell => .ok (.merkleProof (hash cell) (depth cell) cell)

/-! ## Spec-side description of the proof chain (claim C4)

These definitions follow the words of the spec/claim, to be compared with the
embedding of the source above. -/

/-- Spec-side triplet packing: repeatedly pack three-at-a-time groups of the
reversed remaining shard proofs, writing `sc[i+2], sc[i+1], sc[i]` (positions
in the reversed stream) plus the previously-built child cell. -/
def specPackTriples : List Cell → Option Cell → Option Cell
  | a :: b :: c :: t, child =>
    specPackTriples t (some (.ordinary [] ([c, b, a] ++ child.toList)))
  | _, child => child

/-- Spec-side proof chain: outer body holds 256 bits of the mc file hash and
32 bits of `vset_utime_since`; references are the mc proof, the signatures,
then `shard_proofs[0]` when the list is non-empty followed by the packed chain
whose deepest child holds `shard_proofs[N], …, shard_proofs[N-r+1]` in that
order (`N = len - 1`, `r = N mod 3`, when `r ≠ 0`); the topmost child cell is
attached as the last reference of the body; the body is wrapped in a
Merkle-proof exotic cell. -/
def specProofChain (hash depth : Cell → Nat) (mcFileHash : Nat) (mcBlock : Cell)
    (shardBlocks : List Cell) (vsetUtimeSince : Nat) (signatures : Cell) : Cell :=
  let chainRefs :=
    match shardBlocks with
    | [] => []
    | sc0 :: rest =>
      let rv := rest.reverse
      let r := rv.length % 3
      let deepest : Option Cell :=
        if r ≠ 0 then some (.ordinary [] (rv.take r)) else none
      sc0 :: (specPackTriples (rv.drop r) deepest).toList
  let body : Cell :=
    .ordinary [.u256 mcFileHash, .u32 vsetUtimeSince]
      ([mcBlock, signatures] ++ chainRefs)
  .merkleProof (hash body) (depth body) body

/-! ## Validator sets and signatures

Embeds the data carried by `everscale_types::models::{BlockSignature,
ValidatorDescription, ValidatorSet}`.  Public keys, node-id-shorts and
512-bit signatures are opaque and modelled as `Nat`; the TL hash of an
ed25519 public key (`tl_proto::hash(PublicKey::Ed25519 { .. })`) is an
abstract parameter `hashPk`. -/

structure BlockSig where
  nodeIdShort : Nat
  sigBits : Nat
deriving Repr, DecidableEq

structure ValidatorDesc where
  publicKey : Nat
  weight : Nat
deriving Repr, DecidableEq

structure VSet where
  utimeSince : Nat
  list : List ValidatorDesc
  totalWeight : Nat
deriving Repr, DecidableEq

/-- Block identity `(workchain, shard, seqno, root_hash, file_hash)`. -/
structure BlockIdM where
  workchain : Int
  shardPfx : Nat
  seqno : Nat
  rootHash : Nat
  fileHash : Nat
deriving Repr, DecidableEq

/-! Association-list model of `HashMap<HashBytes, Signature>`.  The map is
only read through key lookup, key removal and an emptiness test, so the
insertion-ordered association list is an exact model. -/

/-- Key lookup. -/
def alookup (m : List (Nat × Nat)) (k : Nat) : Option Nat :=
  match m with
  | [] => none
  | (k', v) :: rest => if k' = k then some v else alookup rest k

/-- Removal of the entry with the given key (`HashMap::remove`); with nodup
keys this removes the unique entry. -/
def aremove (m : List (Nat × Nat)) (k : Nat) : List (Nat × Nat) :=
  match m with
  | [] => []
  | (k', v) :: rest => if k' = k then rest else (k', v) :: aremove rest k

/-- Insertion with replacement (`HashMap::insert` ignoring its return value). -/
def hmInsert (m : List (Nat × Nat)) (k v : Nat) : List (Nat × Nat) :=
  match m with
  | [] => [(k, v)]
  | (k', v') :: rest => if k' = k then (k', v) :: rest else (k', v') :: hmInsert rest k v

/-- Collecting the signature iterator into a map, as `check_signatures` does
(`collect::<Result<HashMap<_, _>, _>>()`): entry errors short-circuit,
duplicate node-id-shorts silently overwrite. -/
def collectSigs (m : List (Nat × Nat)) : List (Except Err BlockSig) → Except Err (List (Nat × Nat))
  | [] => .ok m
  | .error e :: _ => .error e
  | .ok s :: rest => collectSigs (hmInsert m s.nodeIdShort s.sigBits) rest

/-- Collecting the signature iterator into a map, as `prepare_signatures`
does: a duplicate node-id-short is rejected with `InvalidData`. -/
def collectSigsStrict (m : List (Nat × Nat)) : List (Except Err BlockSig) → Except Err (List (Nat × Nat))
  | [] => .ok m
  | .error e :: _ => .error e
  | .ok s :: rest =>
    match alookup m s.nodeIdShort with
    | some _ => .error .invalidData
    | none => collectSigsStrict (m ++ [(s.nodeIdShort, s.sigBits)]) rest

/-- The validator loop of `check_signatures` (src/util/src/block/mod.rs lines
213-226): for each validator in order, remove its signature from the map if
present, verify it (`verify : publicKey → signature → Bool`, with the
data-to-sign already fixed), and accumulate the weight with `checked_add`. -/
def checkLoop (hashPk : Nat → Nat) (verify : Nat → Nat → Bool) :
    List ValidatorDesc → List (Nat × Nat) → Nat → Except Err (Nat × List (Nat × Nat))
  | [], m, w => .ok (w, m)
  | v :: rest, m, w =>
    match alookup m (hashPk v.publicKey) with
    | some sig =>
      if verify v.publicKey sig then
        match checkedAdd w v.weight with
        | some w' => checkLoop hashPk verify rest (aremove m (hashPk v.publicKey)) w'
        | none => .error .intOverflow
      else .error .invalidSignature
    | none => checkLoop hashPk verify rest m w

/-- Embeds `check_signatures` (src/util/src/block/mod.rs lines 196-244).
`buildDataForSign` abstracts `Block::build_data_for_sign`; `verifySig pk
toSign sig` abstracts `ValidatorDescription::verify_signature`. -/
def checkSignatures (hashPk : Nat → Nat) (verifySig : Nat → Nat → Nat → Bool)
    (buildDataForSign : BlockIdM → Nat) (blockId : BlockIdM)
    (signatures : List (Except Err BlockSig)) (vset : VSet) : Except Err Unit :=
  match collectSigs [] signatures with
  | .error e => .error e
  | .ok m =>
    let toSign := buildDataForSign blockId
    match checkLoop hashPk (fun pk sig => verifySig pk toSign sig) vset.list m 0 with
    | .error e => .error e
    | .ok (weight, m') =>
      if m'.isEmpty then
        match checkedMul weight 3, checkedMul vset.totalWeight 2 with
        | some w3, some t2 => if w3 > t2 then .ok () else .error .invalidData
        | _, _ => .error .intOverflow
      else .error .invalidData

/-- Sum of the weights of the validators whose node-id-short matches some
provided signature (the weight `check_signatures` accumulates). -/
def signedWeight (hashPk : Nat → Nat) (vset : VSet) (sigs : List BlockSig) : Nat :=
  ((vset.list.filter
      (fun v => decide (hashPk v.publicKey ∈ sigs.map (·.nodeIdShort)))).map
    (·.weight)).sum

/-- Node-id-shorts of a validator list, in order. -/
def vsHashes (hashPk : Nat → Nat) (vs : List ValidatorDesc) : List Nat :=
  vs.map (fun v => hashPk v.publicKey)

/-- Total weight of the validators of `vs` that match a key of `m`. -/
def matchedSum (hashPk : Nat → Nat) (vs : List ValidatorDesc) (m : List (Nat × Nat)) : Nat :=
  ((vs.filter (fun v => (alookup m (hashPk v.publicKey)).isSome)).map (fun v => v.weight)).sum

/-- Whether any validator of `vs` matches a key of `m`. -/
def anyMatched (hashPk : Nat → Nat) (vs : List ValidatorDesc) (m : List (Nat × Nat)) : Bool :=
  vs.any (fun v => (alookup m (hashPk v.publicKey)).isSome)

/-- The validator loop of `prepare_signatures` (src/util/src/block/mod.rs
lines 177-186): enumerate validators from index `i`, pick the matching
signature out of the map if any, pushing `(index as u16, signature)`. -/
def selectSigs (hashPk : Nat → Nat) :
    Nat → List ValidatorDesc → List (Nat × Nat) → List (Nat × Nat) × List (Nat × Nat)
  | _, [], m => ([], m)
  | i, v :: rest, m =>
    match alookup m (hashPk v.publicKey) with
    | some sig =>
      let p := selectSigs hashPk (i + 1) rest (aremove m (hashPk v.publicKey))
      ((i % 65536, sig) :: p.1, p.2)
    | none => selectSigs hashPk (i + 1) rest m

/-- Models `Dict::try_from_sorted_slice`: builds the dictionary from a slice
of key/value pairs whose keys must be strictly ascending. -/
def tryFromSortedSlice (l : List (Nat × Nat)) : Except Err (List (Nat × Nat)) :=
  if l.Pairwise (fun a b => a.1 < b.1) then .ok l else .error .invalidData

/-- Embeds `prepare_signatures` (src/util/src/block/mod.rs lines 155-194; an
identical copy lives in src/proof-api-l2/src/storage/block.rs lines 13-53).
The resulting dictionary is modelled by its key/value list; `into_root()`
returning `None` on an empty dictionary becomes the empty-list check. -/
def prepareSignatures (hashPk : Nat → Nat) (signatures : List (Except Err BlockSig))
    (vset : VSet) : Except Err (List (Nat × Nat)) :=
  match collectSigsStrict [] signatures with
  | .error e => .error e
  | .ok m =>
    let p := selectSigs hashPk 0 vset.list m
    if p.2.isEmpty then
      match tryFromSortedSlice p.1 with
      | .error e => .error e
      | .ok [] => .error .emptyProof
      | .ok d => .ok d
    else .error .invalidData

/-- Specification-level form of the dictionary `prepare_signatures` is said to
build: one entry per validator of the list, keyed by the validator's index
`i` into the list, whose value is the provided signature owned by that
validator's node-id-short (looked up in the collected signature map), skipping
validators with no matching signature. Defined from the spec's words, to be
compared with the `selectSigs` loop translated from the source. -/
def specIndexDict (hashPk : Nat → Nat) :
    Nat → List ValidatorDesc → List (Nat × Nat) → List (Nat × Nat)
  | _, [], _ => []
  | i, v :: rest, m =>
    match alookup m (hashPk v.publicKey) with
    | some sig => (i, sig) :: specIndexDict hashPk (i + 1) rest m
    | none => specIndexDict hashPk (i + 1) rest m

/-! ## Proof builders (src/util/src/block/mod.rs)

Each builder walks the block with a usage tree and finishes with
`MerkleProof::create(..).prune_big_cells(true).build_raw_ext(..)` followed by
the guard `if pruned.hash(0) != root.hash(0) { return Err(InvalidData) }`.
The walking steps and the Merkle-library build are external-library calls and
enter the embedding as `Except`-valued parameters; the control flow joining
them and the final hash guard are the embedded repository code. -/

/-- Embeds `make_pruned_block` (lines 308-357): `parseRes` stands for
`parse::<M::Block>` plus `load_extra`, `infoRes` for `load_info_raw` with its
recursive touch (run only when the extra has a custom part), `txWalkRes` for
the account-blocks walk including the `on_tx` callbacks, and `merkleRes` for
the Merkle-proof build. -/
def makePrunedBlock (hash : Cell → Nat) (blockRoot : Cell)
    (parseRes : Except Err Unit) (hasCustom : Bool) (infoRes : Except Err Unit)
    (txWalkRes : Except Err Unit) (merkleRes : Except Err Cell) : Except Err Cell :=
  match parseRes with
  | .error e => .error e
  | .ok _ =>
    match (if hasCustom then infoRes else .ok ()) with
    | .error e => .error e
    | .ok _ =>
      match txWalkRes with
      | .error e => .error e
      | .ok _ =>
        match merkleRes with
        | .error e => .error e
        | .ok pruned =>
          if hash pruned ≠ hash blockRoot then .error .invalidData
          else .ok pruned

/-- Embeds `make_pivot_block_proof` (lines 362-396): `mcBranchRes` stands for
the masterchain branch (touch full info, visit all shard hashes), `scBranchRes`
for the shard branch (touch `info.prev_ref` data). -/
def makePivotBlockProof (hash : Cell → Nat) (isMasterchain : Bool) (blockRoot : Cell)
    (parseRes : Except Err Unit) (mcBranchRes scBranchRes : Except Err Unit)
    (merkleRes : Except Err Cell) : Except Err Cell :=
  match parseRes with
  | .error e => .error e
  | .ok _ =>
    match (if isMasterchain then mcBranchRes else scBranchRes) with
    | .error e => .error e
    | .ok _ =>
      match merkleRes with
      | .error e => .error e
      | .ok pruned =>
        if hash pruned ≠ hash blockRoot then .error .invalidData
        else .ok pruned

/-- Embeds `make_mc_proof` (lines 445-477): `parseRes` covers block/info
parsing, `customRes` covers `load_extra` and `load_custom`,
`findShardSeqnoRes` is `custom.find_shard_seqno(shard)`. -/
def makeMcProof (hash : Cell → Nat) (blockRoot : Cell)
    (parseRes customRes : Except Err Unit) (findShardSeqnoRes : Except Err Nat)
    (merkleRes : Except Err Cell) : Except Err (Cell × Nat) :=
  match parseRes with
  | .error e => .error e
  | .ok _ =>
    match customRes with
    | .error e => .error e
    | .ok _ =>
      match findShardSeqnoRes with
      | .error e => .error e
      | .ok latestShardSeqno =>
        match merkleRes with
        | .error e => .error e
        | .ok pruned =>
          if hash pruned ≠ hash blockRoot then .error .invalidData
          else .ok (pruned, latestShardSeqno)

/-- Embeds `make_key_block_proof` (lines 398-435): `currentVsetRes` is
`config.get_raw_cell_ref(34)` (its `None` is turned into `CellUnderflow`),
`prevVsetRes` is `config.get_raw_cell_ref(32)` in the `with_prev_vset`
branch, where a `None` is ignored. -/
def makeKeyBlockProof (hash : Cell → Nat) (blockRoot : Cell) (withPrevVset : Bool)
    (parseRes configRes : Except Err Unit)
    (currentVsetRes prevVsetRes : Except Err (Option Unit))
    (merkleRes : Except Err Cell) : Except Err Cell :=
  match parseRes with
  | .error e => .error e
  | .ok _ =>
    match configRes with
    | .error e => .error e
    | .ok _ =>
      match currentVsetRes with
      | .error e => .error e
      | .ok none => .error .cellUnderflow
      | .ok (some _) =>
        match (if withPrevVset then prevVsetRes.map (fun _ => ()) else .ok ()) with
        | .error e => .error e
        | .ok _ =>
          match merkleRes with
          | .error e => .error e
          | .ok pruned =>
            if hash pruned ≠ hash blockRoot then .error .invalidData
            else .ok pruned

/-- Embeds `make_tx_proof` (lines 482-529; identical copy in
src/proof-api-l2/src/storage/block.rs lines 265-309).  `accountLookup` is
`account_blocks.get(account)` and `txLookup` is `transactions.get(lt)`; both
are consumed through `.ok().flatten()`, so their errors are discarded and
mapped to `Ok(None)` exactly like a missing entry. -/
def makeTxProof (hash : Cell → Nat) (blockRoot : Cell) (includeInfo : Bool)
    (parseRes infoRes extraRes accountBlocksRes : Except Err Unit)
    (accountLookup txLookup : Except Err (Option Unit))
    (merkleRes : Except Err Cell) : Except Err (Option Cell) :=
  match parseRes with
  | .error e => .error e
  | .ok _ =>
    match (if includeInfo then infoRes else .ok ()) with
    | .error e => .error e
    | .ok _ =>
      match extraRes with
      | .error e => .error e
      | .ok _ =>
        match accountBlocksRes with
        | .error e => .error e
        | .ok _ =>
          match accountLookup with
          | .ok (some _) =>
            match txLookup with
            | .ok (some _) =>
              match merkleRes with
              | .error e => .error e
              | .ok pruned =>
                if hash pruned ≠ hash blockRoot then .error .invalidData
                else .ok (some pruned)
            | _ => .ok none
          | _ => .ok none

/-! ## Key-block uploader: find_next_key_block

Embeds `Uploader::find_next_key_block` (src/sync-service/src/service/mod.rs
lines 245-276).  `get` models `get_key_block` (source network plus cache) as
a total map from key-block seqno to its data; the unbounded `loop` is given
explicit fuel, `none` meaning the fuel ran out. -/

structure KeyBlockData where
  utimeSince : Nat
  prevKeyBlockSeqno : Nat
deriving Repr, DecidableEq

/-- The `loop` of `find_next_key_block`: compare the visited key block's
`current_vset.utime_since` with the destination's; on greater remember it and
follow `prev_key_block_seqno`, on less return `None` (source behind
destination), on equal return the remembered candidate. -/
def findNextKeyBlockLoop (get : Nat → KeyBlockData) (cur : Nat) :
    Nat → Nat → Option KeyBlockData → Option (Option KeyBlockData)
  | 0, _, _ => none
  | fuel + 1, latestSeqno, result =>
    let keyBlock := get latestSeqno
    if cur < keyBlock.utimeSince then
      findNextKeyBlockLoop get cur fuel keyBlock.prevKeyBlockSeqno (some keyBlock)
    else if keyBlock.utimeSince < cur then
      some none
    else
      some result

/-- Embeds `find_next_key_block`: start from the source's latest key block
seqno with no remembered candidate. -/
def findNextKeyBlock (get : Nat → KeyBlockData) (cur latestSeqno fuel : Nat) :
    Option (Option KeyBlockData) :=
  findNextKeyBlockLoop get cur fuel latestSeqno none

/-- The seqno reached after `k` steps of following `prev_key_block_seqno`
from `latestSeqno`. -/
def kbWalk (get : Nat → KeyBlockData) (latestSeqno : Nat) : Nat → Nat
  | 0 => latestSeqno
  | k + 1 => (get (kbWalk get latestSeqno k)).prevKeyBlockSeqno

/-! ## Proof storage (src/proof-api-l2/src/storage/mod.rs)

The column-partitioned store becomes a function from column family and byte
key to an optional opaque value; a `rocksdb::WriteBatch` becomes a list of
batch operations applied atomically by a single fold. -/

inductive CF where
  | prunedBlocks
  | pivotBlocks
  | transactions
  | signatures
  | timings
deriving Repr, DecidableEq

/-- Stored values.  Their byte encodings (`encode_block`, `encode_signatures`,
the 17-byte transaction value, the 4-byte LE timings value) are kept
structural since no range predicate inspects them. -/
inductive Val where
  | blockVal (fileHash : Nat) (cell : Cell)
  | sigVal (vsetUtimeSince : Nat) (dict : List (Nat × Nat))
  | timingsVal (mcSeqno : Nat)
  | txVal (workchain : Int) (shardPfx : Nat) (seqno : Nat) (refByMcSeqno : Nat)
deriving Repr

inductive BatchOp where
  | put (cf : CF) (key : List Nat) (val : Val)
  | deleteRange (cf : CF) (low high : List Nat)
deriving Repr

/-- Whether a batch operation is a range delete. -/
def isDeleteRange : BatchOp → Bool
  | .put _ _ _ => false
  | .deleteRange _ _ _ => true

/-- Column family targeted by a batch operation. -/
def opCf : BatchOp → CF
  | .put cf _ _ => cf
  | .deleteRange cf _ _ => cf

/-- The 13-byte key `workchain(1) ‖ shard(8 BE) ‖ seqno(4 BE)` of the
`pruned_blocks` / `pivot_blocks` families. -/
def blockKeyBytes (wc : Int) (pfx seqno : Nat) : List Nat :=
  i8Byte wc :: (beBytes 8 pfx ++ beBytes 4 seqno)

/-- The 41-byte key `lt(8 BE) ‖ workchain(1) ‖ account(32)` of the
`transactions` family. -/
def txKeyBytes (lt : Nat) (wc : Int) (account : Nat) : List Nat :=
  beBytes 8 lt ++ i8Byte wc :: beBytes 32 account

/-- Strict lexicographic byte-string order (the store's key comparator). -/
def lexLt : List Nat → List Nat → Bool
  | [], [] => false
  | [], _ :: _ => true
  | _ :: _, [] => false
  | a :: as', b :: bs' => if a < b then true else if b < a then false else lexLt as' bs'

/-- The visible key-ordered store state. -/
def Store := CF → List Nat → Option Val

/-- Effect of one batch operation on the store; a range delete removes every
key in `[low, high)`. -/
def applyOp (st : Store) : BatchOp → Store
  | .put cf k v => fun cf' k' => if cf' = cf ∧ k' = k then some v else st cf' k'
  | .deleteRange cf lo hi =>
    fun cf' k' =>
      if cf' = cf ∧ (!lexLt k' lo && lexLt k' hi) = true then none else st cf' k'

/-- Atomic application of a whole write batch. -/
def applyBatch (st : Store) (ops : List BatchOp) : Store :=
  ops.foldl applyOp st

/-- Whether a batch operation can affect the value at `(cf, k)`. -/
def opTouches (op : BatchOp) (cf : CF) (k : List Nat) : Prop :=
  match op with
  | .put cf' k' _ => cf' = cf ∧ k' = k
  | .deleteRange cf' lo hi => cf' = cf ∧ (!lexLt k lo && lexLt k hi) = true

/-- Block identity `(workchain, shard, seqno)` (`BlockIdShort`). -/
structure BlockIdShortM where
  workchain : Int
  shardPfx : Nat
  seqno : Nat
deriving Repr, DecidableEq

/-- The GC bound computed by `find_outdated_bound` (src/proof-api-l2/src/storage/mod.rs
lines 549-624). -/
structure OutdatedBoundM where
  removeUntil : Nat
  lt : Nat
  blocks : List BlockIdShortM
deriving Repr

/-- The delete-range operations appended for an `OutdatedBound` (lines
507-531 together with `timings_key`, `tx_key` and `iter_block_keys`): the
`timings` range `[0, remove_until+1)`, the `transactions` range
`[0, (lt+1) BE ‖ 0×33)`, then for each block whose workchain fits in `i8`
(`iter_block_keys` silently skips the others) the `pivot_blocks` and
`pruned_blocks` ranges `[wc ‖ shard ‖ 0×4, wc ‖ shard ‖ (seqno+1) BE)`. -/
def gcDeleteOps (bound : OutdatedBoundM) : List BatchOp :=
  [.deleteRange .timings (List.replicate 4 0) (beBytes 4 (bound.removeUntil + 1)),
   .deleteRange .transactions (List.replicate 41 0)
     (beBytes 8 (bound.lt + 1) ++ List.replicate 33 0)]
  ++ ((bound.blocks.filterMap (fun bid =>
        if fitsI8 bid.workchain then
          some (blockKeyBytes bid.workchain bid.shardPfx 0,
                blockKeyBytes bid.workchain bid.shardPfx (bid.seqno + 1))
        else none)).map (fun p =>
          [BatchOp.deleteRange .pivotBlocks p.1 p.2,
           BatchOp.deleteRange .prunedBlocks p.1 p.2])).flatten

/-- Inputs of one `store_block` call (lines 356-546).  External-library
results enter as `Except` values: `genUtimeRes` is `block.load_info()?.gen_utime`;
the cancellation flag is constant for the call (it is only flipped by the
caller-side scope guard), so every `check` observes the same boolean. -/
structure StoreBlockInput where
  workchain : Int
  shardPfx : Nat
  seqno : Nat
  fileHash : Nat
  refByMcSeqno : Nat
  genUtimeRes : Except Err Nat
  now : Nat
  minProofTtlSec : Nat
  vset : Option VSet
  cancelled : Bool
  sigValues : List (Except Err BlockSig)

/-- The write batch assembled by `store_block`.  `pruneRes` stands for
`make_pruned_block` run with the transaction callback: on success it yields
the `(account, lt)` pairs the callback received, in order, plus the pruned
cell (the callback itself only appends `transactions` puts, reproduced here);
`pivotRes` stands for the `make_pivot_block_proof` worker and `boundRes` for
the `find_outdated_bound` worker.  Early exits (non-`i8` workchain, outdated
block) return an empty batch, i.e. success with no work. -/
def storeBlockBatch (hashPk : Nat → Nat) (inp : StoreBlockInput)
    (pruneRes : Except Err (List (Nat × Nat) × Cell))
    (pivotRes : Except Err Cell)
    (boundRes : Except Err (Option OutdatedBoundM)) : Except Err (List BatchOp) :=
  if ¬ fitsI8 inp.workchain then .ok []
  else
    match inp.genUtimeRes with
    | .error e => .error e
    | .ok genUtime =>
      if inp.minProofTtlSec < inp.now - genUtime then .ok []
      else
        match inp.vset with
        | none => .error (.anyhow "no current vset found")
        | some vset =>
          if inp.cancelled then .error .cancelled
          else
            let isMc : Bool := inp.workchain == -1
            let gcActive : Bool := isMc && (inp.seqno % 100 == 0)
            let batch0 : List BatchOp :=
              if gcActive then
                [.put .timings (beBytes 4 genUtime) (.timingsVal inp.seqno)]
              else []
            match pruneRes with
            | .error e => .error e
            | .ok (txs, prunedCell) =>
              let txOps : List BatchOp := txs.map (fun al =>
                .put .transactions (txKeyBytes al.2 inp.workchain al.1)
                  (.txVal inp.workchain inp.shardPfx inp.seqno inp.refByMcSeqno))
              if inp.cancelled then .error .cancelled
              else
                let batch1 := batch0 ++ txOps ++
                  [.put .prunedBlocks (blockKeyBytes inp.workchain inp.shardPfx inp.seqno)
                    (.blockVal inp.fileHash prunedCell)]
                match (if isMc then
                        match prepareSignatures hashPk inp.sigValues vset with
                        | .error e => .error e
                        | .ok d =>
                          .ok [BatchOp.put .signatures (beBytes 4 inp.seqno)
                            (.sigVal vset.utimeSince d)]
                      else .ok [] : Except Err (List BatchOp)) with
                | .error e => .error e
                | .ok sigOps =>
                  match pivotRes with
                  | .error e => .error e
                  | .ok pivotCell =>
                    let batch2 := batch1 ++ sigOps ++
                      [.put .pivotBlocks (blockKeyBytes inp.workchain inp.shardPfx inp.seqno)
                        (.blockVal inp.fileHash pivotCell)]
                    if gcActive then
                      match boundRes with
                      | .error e => .error e
                      | .ok none => .ok batch2
                      | .ok (some bound) => .ok (batch2 ++ gcDeleteOps bound)
                    else .ok batch2

/-- Embeds `store_block`: assemble the batch and, on success, write it
atomically (the single `rocksdb.write_opt` at the end). -/
def storeBlock (hashPk : Nat → Nat) (inp : StoreBlockInput)
    (pruneRes : Except Err (List (Nat × Nat) × Cell))
    (pivotRes : Except Err Cell)
    (boundRes : Except Err (Option OutdatedBoundM)) (st : Store) : Except Err Store :=
  (storeBlockBatch hashPk inp pruneRes pivotRes boundRes).map (applyBatch st)

/-! ## build_proof (src/proof-api-l2/src/storage/mod.rs lines 218-353)

The read snapshot is modelled structurally: the byte-key packing and the
`decode_block` / `decode_signatures` value decoding are folded into the
lookup maps, whose keys and results carry exactly the decoded fields. -/

/-- The decoded 17-byte `transactions` value. -/
structure TxValueM where
  workchain : Int
  shardPfx : Nat
  seqno : Nat
  refByMcSeqno : Nat
deriving Repr, DecidableEq

/-- A point-in-time read snapshot: `transactions` is keyed by
`(lt, workchain, account)`, the block families by `(workchain, shard, seqno)`
yielding `(file_hash, cell)`, and `signatures` by mc seqno yielding
`(vset_utime_since, cell)`. -/
structure SnapshotM where
  transactions : Nat → Int → Nat → Option TxValueM
  prunedBlocks : Int → Nat → Nat → Option (Nat × Cell)
  pivotBlocks : Int → Nat → Nat → Option (Nat × Cell)
  signatures : Nat → Option (Nat × Cell)

/-- The shard prefix of `ShardIdent::MASTERCHAIN`. -/
def mcPfx : Nat := 9223372036854775808

/-- The seqnos iterated by the intermediate-shard-block loop of `build_proof`
(line 322): the Rust range `(latest_shard_seqno..tx_block_seqno)`, reversed.
A Rust range `a..b` is empty whenever `a ≥ b`. -/
def shardProofSeqnos (latestShardSeqno txBlockSeqno : Nat) : List Nat :=
  (List.range' latestShardSeqno (txBlockSeqno - latestShardSeqno)).reverse

/-- Loads the pivot shard blocks at the given seqnos (the body of the loop at
lines 322-336), with the per-iteration cancellation check. -/
def loadShardProofs (snap : SnapshotM) (wc : Int) (pfx : Nat) (cancelled : Bool) :
    List Nat → Except Err (List Cell)
  | [] => .ok []
  | s :: rest =>
    if cancelled then .error .cancelled
    else
      match snap.pivotBlocks wc pfx s with
      | none => .error (.anyhow "pivot shard block not found")
      | some (_, c) => (loadShardProofs snap wc pfx cancelled rest).map (c :: ·)

/-- Embeds the blocking part of `build_proof`: index lookup, pruned-block
load, tx proof, signatures load, masterchain/shard branch, shard-proof list
assembly and the final `make_proof_chain`.  `txProofRes` stands for
`make_tx_proof` applied to the loaded pruned block, `mcProofRes` for
`make_mc_proof` applied to the loaded pivot masterchain block (the shard
identity is fixed by the call); both are abstract since they parse cells. -/
def buildProof (hash depth : Cell → Nat) (snap : SnapshotM)
    (accountWc : Int) (accountHash : Nat) (lt : Nat)
    (txProofRes : Cell → Except Err (Option Cell))
    (mcProofRes : Cell → Except Err (Cell × Nat))
    (cancelled : Bool) : Except Err (Option Cell) :=
  match snap.transactions lt accountWc accountHash with
  | none => .ok none
  | some v =>
    if cancelled then .error .cancelled
    else
      match snap.prunedBlocks v.workchain v.shardPfx v.seqno with
      | none => .error (.anyhow "block not found")
      | some (txBlockHash, blockWithTx) =>
        if cancelled then .error .cancelled
        else
          match txProofRes blockWithTx with
          | .error e => .error e
          | .ok none => .error (.anyhow "tx not found in block")
          | .ok (some txProof) =>
            if cancelled then .error .cancelled
            else
              match snap.signatures v.refByMcSeqno with
              | none => .error (.anyhow "signatures not found")
              | some (vsetUtimeSince, sigsCell) =>
                match (if accountWc = -1 then
                        .ok (txBlockHash, txProof, ([] : List Cell))
                      else
                        match snap.pivotBlocks (-1) mcPfx v.refByMcSeqno with
                        | none => .error (.anyhow "ref mc block not found")
                        | some (mcBlockHash, mcBlock) =>
                          match mcProofRes mcBlock with
                          | .error e => .error e
                          | .ok (mcRoot, latestShardSeqno) =>
                            if latestShardSeqno < v.seqno then
                              .error (.anyhow
                                "stored masterchain block has some strange shard description")
                            else
                              (loadShardProofs snap v.workchain v.shardPfx cancelled
                                  (shardProofSeqnos latestShardSeqno v.seqno)).map
                                (fun scs => (mcBlockHash, mcRoot, scs ++ [txProof]))
                        : Except Err (Nat × Cell × List Cell)) with
                | .error e => .error e
                | .ok (fileHash, mcProof, shardProofs) =>
                  if cancelled then .error .cancelled
                  else
                    (makeProofChain hash depth fileHash mcProof shardProofs
                        vsetUtimeSince sigsCell).map some

/-- Number of references of the body cell of an assembled proof chain
(the cell wrapped by the outer Merkle-proof cell). -/
def proofBodyRefCount : Except Err (Option Cell) → Option Nat
  | .ok (some (.merkleProof _ _ (.ordinary _ refs))) => some refs.length
  | _ => none

/-! ## Concrete fixtures

Small closed instances used to evaluate the embedded code at specific
inputs. -/

/-- A trivial representation-hash assignment for concrete evaluations. -/
def hash0 : Cell → Nat := fun _ => 0

/-- A trivial depth assignment for concrete evaluations. -/
def depth0 : Cell → Nat := fun _ => 0

/-- Distinguishable leaf cells. -/
def leafCell (n : Nat) : Cell := .ordinary [.u32 n] []

/-- Snapshot for the E2-style scenario of claim C1: a shard transaction at
`(0, MASTERCHAIN-sized prefix, seqno 50)` with `lt = 777`, referenced by
masterchain seqno 200; the pivot masterchain block 200 is stored, but no
pivot shard blocks at seqnos 52 and 51 are stored at all. -/
def c1Snap : SnapshotM where
  transactions := fun lt wc a =>
    if lt = 777 ∧ wc = 0 ∧ a = 170 then some ⟨0, mcPfx, 50, 200⟩ else none
  prunedBlocks := fun wc p s =>
    if wc = 0 ∧ p = mcPfx ∧ s = 50 then some (11, leafCell 1) else none
  pivotBlocks := fun wc p s =>
    if wc = -1 ∧ p = mcPfx ∧ s = 200 then some (22, leafCell 2) else none
  signatures := fun s => if s = 200 then some (30, leafCell 3) else none

/-- Snapshot for the masterchain-account scenario of claim C6: a masterchain
transaction at seqno 100 with `lt = 99`. -/
def c6Snap : SnapshotM where
  transactions := fun lt wc a =>
    if lt = 99 ∧ wc = -1 ∧ a = 51 then some ⟨-1, mcPfx, 100, 100⟩ else none
  prunedBlocks := fun wc p s =>
    if wc = -1 ∧ p = mcPfx ∧ s = 100 then some (77, leafCell 6) else none
  pivotBlocks := fun _ _ _ => none
  signatures := fun s => if s = 100 then some (40, leafCell 7) else none

/-- A representation-hash assignment distinguishing leaf cells by their
first `u32` segment, used to exercise the hash guards on mismatching cells. -/
def cellMark : Cell → Nat
  | .ordinary (.u32 n :: _) _ => n
  | _ => 0

/-- A GC-triggering `store_block` input for claim C8: masterchain block at
seqno 300 (divisible by `STORE_TIMINGS_STEP`), fresh, with a one-validator
vset and one matching signature (under `hashPk = id`). -/
def c8Input : StoreBlockInput where
  workchain := -1
  shardPfx := mcPfx
  seqno := 300
  fileHash := 5
  refByMcSeqno := 300
  genUtimeRes := .ok 1000
  now := 1000
  minProofTtlSec := 100
  vset := some ⟨500, [⟨9, 1⟩], 1⟩
  cancelled := false
  sigValues := [.ok ⟨9, 123⟩]

/-- A GC bound whose block list contains a block id with workchain 300,
which does not fit in `i8`. -/
def c8Bound : OutdatedBoundM where
  removeUntil := 900
  lt := 5000
  blocks := [⟨300, 7, 5⟩]

/-! ## Helper lemmas -/

theorem cbBuild_ok_of (data : List Seg) (refs : List Cell) (h1 : refs.length ≤ 4)
    (h2 : (data.map Seg.bits).sum ≤ 1023) : cbBuild data refs = .ok (.ordinary data refs) := by
  simp [cbBuild, h1, h2]

theorem packTriples_eq_spec : ∀ (l : List Cell) (child : Option Cell),
    packTriples l child = .ok (specPackTriples l child)
  | [], _ => rfl
  | [_], _ => rfl
  | [_, _], _ => rfl
  | a :: b :: c :: t, child => by
    have ih := packTriples_eq_spec t (some (.ordinary [] ([c, b, a] ++ child.toList)))
    have hb : cbBuild [] (c :: b :: a :: child.toList) =
        .ok (.ordinary [] (c :: b :: a :: child.toList)) := by
      apply cbBuild_ok_of
      · cases child <;> simp
      · simp
    simp only [packTriples, specPackTriples, List.cons_append, List.nil_append, hb]
    exact ih

theorem makeProofChain_nil (hash depth : Cell → Nat) (fh : Nat) (mc : Cell) (ts : Nat)
    (sg : Cell) :
    makeProofChain hash depth fh mc [] ts sg =
      .ok (.merkleProof (hash (.ordinary [.u256 fh, .u32 ts] [mc, sg]))
        (depth (.ordinary [.u256 fh, .u32 ts] [mc, sg]))
        (.ordinary [.u256 fh, .u32 ts] [mc, sg])) := rfl

/-! ## Claim C4 -/

/-- C4: for every mc file hash, mc proof cell, shard-proof list, vset
utime-since and signatures cell, `make_proof_chain` returns a Merkle-proof
exotic cell wrapping a body whose data is the 256-bit mc file hash followed
by the 32-bit `vset_utime_since`, whose references are the mc proof, the
signatures, and `shard_proofs[0]` when the list is non-empty; the remaining
shard proofs are packed in reverse order, the deepest child holding
`shard_proofs[N], …, shard_proofs[N-r+1]` (`N = len-1`, `r = N mod 3`) when
`r ≠ 0`, then three at a time (each group written reversed relative to the
reversed stream, i.e. ascending in the original list, plus the previous
child), the topmost child attached as the last reference of the body. -/
theorem c4_make_proof_chain (hash depth : Cell → Nat) (fh : Nat) (mc : Cell)
    (scs : List Cell) (ts : Nat) (sg : Cell) :
    makeProofChain hash depth fh mc scs ts sg =
      .ok (specProofChain hash depth fh mc scs ts sg) := by
  cases scs with
  | nil => rfl
  | cons sc0 rest =>
    have hbody : ∀ child : Option Cell,
        cbBuild [.u256 fh, .u32 ts] ([mc, sg, sc0] ++ child.toList) =
          .ok (.ordinary [.u256 fh, .u32 ts] ([mc, sg, sc0] ++ child.toList)) := by
      intro child
      apply cbBuild_ok_of
      · cases child <;> simp
      · simp [Seg.bits]
    by_cases hr : rest.reverse.length % 3 = 0
    · simp only [makeProofChain, specProofChain, hr, ne_eq, not_true_eq_false, if_false,
        ite_false, packTriples_eq_spec, hbody]
      rfl
    · have htake : cbBuild [] (rest.reverse.take (rest.reverse.length % 3)) =
          .ok (.ordinary [] (rest.reverse.take (rest.reverse.length % 3))) := by
        apply cbBuild_ok_of
        · calc (rest.reverse.take (rest.reverse.length % 3)).length
              ≤ rest.reverse.length % 3 := by simp
          _ ≤ 4 := le_of_lt (lt_of_lt_of_le (Nat.mod_lt _ (by norm_num)) (by norm_num))
        · simp
      simp only [makeProofChain, specProofChain, hr, ne_eq, not_false_eq_true, if_true,
        ite_true, htake, packTriples_eq_spec, hbody]
      rfl

/-! ## Claim C1 -/

/-- C1: evaluation of `build_proof` at the E2 scenario (non-masterchain
account, transaction block seqno 50, masterchain descriptor advertising
`latest_shard_seqno = 52`).  The claim and spec require the shard-proof list
`[pivot@52, pivot@51, tx_proof@50]` of length 3; the code's loop iterates the
Rust range `(latest_shard_seqno..tx_block_seqno)` = `(52..50)`, which is
empty whenever the `ensure!(latest_shard_seqno >= tx_block_seqno)` just above
it passes, so the list passed to `make_proof_chain` is `[tx_proof]` alone:
the call succeeds even though no pivot shard block at seqno 52 or 51 exists
in the snapshot, and the assembled body has references
`[mc_proof, signatures, tx_proof]` with no pivot chain. -/
theorem c1_shard_proof_loop_dead :
    shardProofSeqnos 52 50 = [] ∧
    buildProof hash0 depth0 c1Snap 0 170 777
        (fun _ => .ok (some (leafCell 4))) (fun _ => .ok (leafCell 5, 52)) false =
      .ok (some (.merkleProof 0 0
        (.ordinary [.u256 22, .u32 30] [leafCell 5, leafCell 3, leafCell 4]))) :=
  ⟨rfl, rfl⟩

/-! ## Claim C6 -/

/-- C6 (counterexample): for a masterchain account the assembled proof's
body cell has two references, not four as the claim states. -/
theorem c6_counterexample :
    proofBodyRefCount (buildProof hash0 depth0 c6Snap (-1) 51 99
        (fun _ => .ok (some (leafCell 8))) (fun _ => .error .invalidData) false) = some 2 ∧
    proofBodyRefCount (buildProof hash0 depth0 c6Snap (-1) 51 99
        (fun _ => .ok (some (leafCell 8))) (fun _ => .error .invalidData) false) ≠ some 4 :=
  ⟨rfl, by decide⟩

/-- C6 (amended): for every `build_proof` call on a masterchain account whose
transaction is indexed, the shard-proof list passed to `make_proof_chain` is
empty, the mc proof is the tx proof, the file hash is the tx block's file
hash, and the assembled proof's body cell has two references (`mc_proof` and
`signatures`). -/
theorem c6_masterchain_proof_shape (hash depth : Cell → Nat) (snap : SnapshotM)
    (aHash lt : Nat) (txProofRes : Cell → Except Err (Option Cell))
    (mcProofRes : Cell → Except Err (Cell × Nat))
    (v : TxValueM) (fh : Nat) (bc txp : Cell) (ts : Nat) (sg : Cell)
    (h1 : snap.transactions lt (-1) aHash = some v)
    (h2 : snap.prunedBlocks v.workchain v.shardPfx v.seqno = some (fh, bc))
    (h3 : txProofRes bc = .ok (some txp))
    (h4 : snap.signatures v.refByMcSeqno = some (ts, sg)) :
    buildProof hash depth snap (-1) aHash lt txProofRes mcProofRes false =
      .ok (some (.merkleProof (hash (.ordinary [.u256 fh, .u32 ts] [txp, sg]))
        (depth (.ordinary [.u256 fh, .u32 ts] [txp, sg]))
        (.ordinary [.u256 fh, .u32 ts] [txp, sg]))) := by
  simp [buildProof, h1, h2, h3, h4, makeProofChain_nil, Except.map]

/-- C6 (witness): the amended theorem applied at a concrete masterchain
snapshot. -/
theorem c6_witness :
    buildProof hash0 depth0 c6Snap (-1) 51 99
        (fun _ => .ok (some (leafCell 8))) (fun _ => .error .invalidData) false =
      .ok (some (.merkleProof 0 0 (.ordinary [.u256 77, .u32 40] [leafCell 8, leafCell 7]))) :=
  c6_masterchain_proof_shape hash0 depth0 c6Snap 51 99
    (fun _ => .ok (some (leafCell 8))) (fun _ => .error .invalidData)
    ⟨-1, mcPfx, 100, 100⟩ 77 (leafCell 6) (leafCell 8) 40 (leafCell 7) rfl rfl rfl rfl

/-! ## Claim C3 -/

/-- C3: every proof builder either returns a cell whose level-0 hash equals
the input root's level-0 hash, or, whenever the constructed Merkle proof's
hash differs from the root's, fails with `InvalidData` instead of returning a
cell — for `make_pruned_block`, `make_pivot_block_proof`, `make_mc_proof`,
`make_key_block_proof`, and `make_tx_proof` when it returns `Some`.  The
statements quantify over every outcome of the external parsing and
Merkle-library steps. -/
theorem c3_builders_hash_guard (hash : Cell → Nat) :
    (∀ (root : Cell) pr hc ir tw mr (c : Cell),
        makePrunedBlock hash root pr hc ir tw mr = .ok c → hash c = hash root) ∧
    (∀ (root : Cell) hc (c : Cell), hash c ≠ hash root →
        makePrunedBlock hash root (.ok ()) hc (.ok ()) (.ok ()) (.ok c) =
          .error .invalidData) ∧
    (∀ (root : Cell) im pr mb sb mr (c : Cell),
        makePivotBlockProof hash im root pr mb sb mr = .ok c → hash c = hash root) ∧
    (∀ (root : Cell) im (c : Cell), hash c ≠ hash root →
        makePivotBlockProof hash im root (.ok ()) (.ok ()) (.ok ()) (.ok c) =
          .error .invalidData) ∧
    (∀ (root : Cell) pr cr fr mr (c : Cell) (n : Nat),
        makeMcProof hash root pr cr fr mr = .ok (c, n) → hash c = hash root) ∧
    (∀ (root : Cell) (n : Nat) (c : Cell), hash c ≠ hash root →
        makeMcProof hash root (.ok ()) (.ok ()) (.ok n) (.ok c) = .error .invalidData) ∧
    (∀ (root : Cell) wpv pr cr cvr pvr mr (c : Cell),
        makeKeyBlockProof hash root wpv pr cr cvr pvr mr = .ok c → hash c = hash root) ∧
    (∀ (root : Cell) wpv (c : Cell), hash c ≠ hash root →
        makeKeyBlockProof hash root wpv (.ok ()) (.ok ()) (.ok (some ())) (.ok (some ()))
          (.ok c) = .error .invalidData) ∧
    (∀ (root : Cell) ii pr ir er ar al tl mr (c : Cell),
        makeTxProof hash root ii pr ir er ar al tl mr = .ok (some c) → hash c = hash root) ∧
    (∀ (root : Cell) ii (c : Cell), hash c ≠ hash root →
        makeTxProof hash root ii (.ok ()) (.ok ()) (.ok ()) (.ok ()) (.ok (some ()))
          (.ok (some ())) (.ok c) = .error .invalidData) := by
  refine ⟨?_, ?_, ?_, ?_, ?_, ?_, ?_, ?_, ?_, ?_⟩
  · intro root pr hc ir tw mr c h
    cases hc <;>
      (unfold makePrunedBlock at h; repeat' split at h) <;>
      simp_all
  · intro root hc c hne
    cases hc <;> simp [makePrunedBlock, hne]
  · intro root im pr mb sb mr c h
    cases im <;>
      (unfold makePivotBlockProof at h; repeat' split at h) <;>
      simp_all
  · intro root im c hne
    cases im <;> simp [makePivotBlockProof, hne]
  · intro root pr cr fr mr c n h
    unfold makeMcProof at h
    repeat' split at h
    all_goals simp_all
  · intro root n c hne
    simp [makeMcProof, hne]
  · intro root wpv pr cr cvr pvr mr c h
    cases wpv <;>
      (unfold makeKeyBlockProof at h; repeat' split at h) <;>
      simp_all [Except.map]
  · intro root wpv c hne
    cases wpv <;> simp [makeKeyBlockProof, hne, Except.map]
  · intro root ii pr ir er ar al tl mr c h
    cases ii <;>
      (unfold makeTxProof at h; repeat' split at h) <;>
      simp_all
  · intro root ii c hne
    cases ii <;> simp [makeTxProof, hne]

/-- C3 (witness): the hash guard exercised at concrete cells, in both
directions (matching hash returns the pruned cell, mismatching hash fails
with `InvalidData`). -/
theorem c3_witness :
    cellMark (leafCell 3) = cellMark (leafCell 3) ∧
    makePrunedBlock cellMark (leafCell 3) (.ok ()) false (.ok ()) (.ok ())
      (.ok (leafCell 4)) = .error .invalidData ∧
    makeTxProof cellMark (leafCell 3) false (.ok ()) (.ok ()) (.ok ()) (.ok ())
      (.ok (some ())) (.ok (some ())) (.ok (leafCell 4)) = .error .invalidData :=
  ⟨(c3_builders_hash_guard cellMark).1 (leafCell 3) (.ok ()) false (.ok ()) (.ok ())
      (.ok (leafCell 3)) (leafCell 3) rfl,
   (c3_builders_hash_guard cellMark).2.1 (leafCell 3) false (leafCell 4) (by decide),
   (c3_builders_hash_guard cellMark).2.2.2.2.2.2.2.2.2 (leafCell 3) false (leafCell 4)
     (by decide)⟩

/-! ## Claim C10 -/

/-- C10: `make_tx_proof` returns `Ok(None)` — not an error — not only when
the account or the lt is absent, but also when the account-blocks lookup or
the per-account transactions lookup itself fails with a decoding error (the
lookups are consumed through `.ok().flatten()`); an `Err` can only arise from
parsing the block layout, from the `include_info` branch, or from building
the final Merkle proof (including its `InvalidData` hash guard). -/
theorem c10_tx_proof_lookup_errors (hash : Cell → Nat) :
    (∀ (root : Cell) ii (e : Err) tl mr,
        makeTxProof hash root ii (.ok ()) (.ok ()) (.ok ()) (.ok ()) (.error e) tl mr =
          .ok none) ∧
    (∀ (root : Cell) ii (e : Err) mr,
        makeTxProof hash root ii (.ok ()) (.ok ()) (.ok ()) (.ok ()) (.ok (some ()))
          (.error e) mr = .ok none) ∧
    (∀ (root : Cell) ii pr ir er ar al tl mr (e : Err),
        makeTxProof hash root ii pr ir er ar al tl mr = .error e →
          pr = .error e ∨ (ii = true ∧ ir = .error e) ∨ er = .error e ∨ ar = .error e ∨
          mr = .error e ∨ e = .invalidData) := by
  refine ⟨?_, ?_, ?_⟩
  · intro root ii e tl mr
    cases ii <;> rfl
  · intro root ii e mr
    cases ii <;> rfl
  · intro root ii pr ir er ar al tl mr e h
    cases ii <;>
      (unfold makeTxProof at h; repeat' split at h) <;>
      simp_all

/-- C10 (witness): a failing account lookup and a failing transactions lookup
both yield `Ok(None)` at concrete inputs, and a concrete failing parse is
reported among the admissible error origins. -/
theorem c10_witness :
    makeTxProof hash0 (leafCell 0) false (.ok ()) (.ok ()) (.ok ()) (.ok ())
      (.error .cellUnderflow) (.ok none) (.ok (leafCell 1)) = .ok none ∧
    makeTxProof hash0 (leafCell 0) true (.ok ()) (.ok ()) (.ok ()) (.ok ())
      (.ok (some ())) (.error .invalidTag) (.ok (leafCell 1)) = .ok none ∧
    ((Except.error Err.cellUnderflow : Except Err Unit) = .error .cellUnderflow ∨
      (false = true ∧ (Except.ok () : Except Err Unit) = .error .cellUnderflow) ∨
      (Except.ok () : Except Err Unit) = .error .cellUnderflow ∨
      (Except.ok () : Except Err Unit) = .error .cellUnderflow ∨
      (Except.ok (leafCell 1) : Except Err Cell) = .error .cellUnderflow ∨
      Err.cellUnderflow = .invalidData) :=
  ⟨(c10_tx_proof_lookup_errors hash0).1 (leafCell 0) false .cellUnderflow (.ok none)
      (.ok (leafCell 1)),
   (c10_tx_proof_lookup_errors hash0).2.1 (leafCell 0) true .invalidTag (.ok (leafCell 1)),
   (c10_tx_proof_lookup_errors hash0).2.2 (leafCell 0) false (.error .cellUnderflow)
     (.ok ()) (.ok ()) (.ok ()) (.ok (some ())) (.ok (some ())) (.ok (leafCell 1))
     .cellUnderflow rfl⟩

/-! ## Claim C9 -/

theorem kbWalk_shift (get : Nat → KeyBlockData) (latestSeqno : Nat) :
    ∀ j, kbWalk get latestSeqno (j + 1) =
      kbWalk get ((get latestSeqno).prevKeyBlockSeqno) j := by
  intro j
  induction j with
  | zero => rfl
  | succ j ih =>
    show (get (kbWalk get latestSeqno (j + 1))).prevKeyBlockSeqno =
      (get (kbWalk get ((get latestSeqno).prevKeyBlockSeqno) j)).prevKeyBlockSeqno
    rw [ih]

theorem findNextKeyBlockLoop_spec (get : Nat → KeyBlockData) (cur : Nat) :
    ∀ (k fuel latestSeqno : Nat) (res : Option KeyBlockData),
      (∀ j < k, cur < (get (kbWalk get latestSeqno j)).utimeSince) →
      (get (kbWalk get latestSeqno k)).utimeSince ≤ cur →
      k < fuel →
      findNextKeyBlockLoop get cur fuel latestSeqno res =
        some (if (get (kbWalk get latestSeqno k)).utimeSince = cur then
                (if k = 0 then res else some (get (kbWalk get latestSeqno (k - 1))))
              else none) := by
  intro k
  induction k with
  | zero =>
    intro fuel latestSeqno res _ hstop hfuel
    match fuel, hfuel with
    | fuel + 1, _ =>
      have hnlt : ¬ cur < (get latestSeqno).utimeSince := not_lt.mpr hstop
      by_cases heq : (get latestSeqno).utimeSince = cur
      · simp [findNextKeyBlockLoop, kbWalk, hnlt, heq]
      · have hlt : (get latestSeqno).utimeSince < cur := lt_of_le_of_ne hstop heq
        simp [findNextKeyBlockLoop, kbWalk, hnlt, hlt, heq]
  | succ k ih =>
    intro fuel latestSeqno res hgt hstop hfuel
    match fuel, hfuel with
    | fuel + 1, hfuel =>
      have h0 : cur < (get latestSeqno).utimeSince := hgt 0 (Nat.succ_pos _)
      have hshift : ∀ j, kbWalk get latestSeqno (j + 1) =
          kbWalk get ((get latestSeqno).prevKeyBlockSeqno) j := kbWalk_shift get latestSeqno
      have hrec := ih fuel ((get latestSeqno).prevKeyBlockSeqno) (some (get latestSeqno))
        (fun j hj => by rw [← hshift j]; exact hgt (j + 1) (Nat.succ_lt_succ hj))
        (by rw [← hshift k]; exact hstop)
        (Nat.lt_of_succ_lt_succ hfuel)
      have hstep : findNextKeyBlockLoop get cur (fuel + 1) latestSeqno res =
          findNextKeyBlockLoop get cur fuel ((get latestSeqno).prevKeyBlockSeqno)
            (some (get latestSeqno)) := by
        simp [findNextKeyBlockLoop, h0]
      rw [hstep, hrec, ← hshift k]
      cases k with
      | zero => simp [kbWalk]
      | succ m => simp [← hshift m]

/-- C9: `find_next_key_block(current_vset_utime_since)`, walking from the
source's latest key block seqno backwards along `prev_key_block_seqno` links
(`kbWalk`), returns — once it reaches the first key block whose
`current_vset.utime_since` is not strictly greater — the last-remembered
(oldest-visited) key block when that stopping block's `utime_since` equals
the destination's (`None` if no candidate was visited, i.e. `k = 0`), and
`None` when the stopping block's `utime_since` is strictly less (source
behind destination). -/
theorem c9_find_next_key_block (get : Nat → KeyBlockData) (cur latestSeqno fuel k : Nat)
    (hgt : ∀ j < k, cur < (get (kbWalk get latestSeqno j)).utimeSince)
    (hstop : (get (kbWalk get latestSeqno k)).utimeSince ≤ cur)
    (hfuel : k < fuel) :
    findNextKeyBlock get cur latestSeqno fuel =
      some (if (get (kbWalk get latestSeqno k)).utimeSince = cur then
              (if k = 0 then none else some (get (kbWalk get latestSeqno (k - 1))))
            else none) :=
  findNextKeyBlockLoop_spec get cur k fuel latestSeqno none hgt hstop hfuel

/-- C9 (witness): a concrete source with key blocks `10 → 7 → 4` whose vset
epochs are `5, 3, 3` and a destination at epoch `3`: the walk stops at
seqno 7 (equal epoch) and returns the oldest strictly-newer key block,
namely the one at seqno 10. -/
theorem c9_witness :
    findNextKeyBlock
        (fun s => if s = 10 then ⟨5, 7⟩ else if s = 7 then ⟨3, 4⟩ else ⟨3, 0⟩)
        3 10 5 = some (some ⟨5, 7⟩) :=
  c9_find_next_key_block
    (fun s => if s = 10 then ⟨5, 7⟩ else if s = 7 then ⟨3, 4⟩ else ⟨3, 0⟩)
    3 10 5 1 (by decide) (by decide) (by decide)

/-! ## Claim C7 -/

/-- C7: `store_block` returns success and writes nothing when the block's
workchain does not fit in `i8`, and likewise when `now - gen_utime >
min_proof_ttl_sec`; it fails with "no current vset found" when no current
validator set is installed; and every outcome is either an error with the
batch discarded (no state is produced at all) or the single atomic
application of the one assembled write batch. -/
theorem c7_store_block_atomicity :
    (∀ (hashPk : Nat → Nat) (inp : StoreBlockInput) pruneRes pivotRes boundRes (st : Store),
        fitsI8 inp.workchain = false →
        storeBlock hashPk inp pruneRes pivotRes boundRes st = .ok st) ∧
    (∀ (hashPk : Nat → Nat) (inp : StoreBlockInput) pruneRes pivotRes boundRes (st : Store)
        (g : Nat),
        fitsI8 inp.workchain = true → inp.genUtimeRes = .ok g →
        inp.minProofTtlSec < inp.now - g →
        storeBlock hashPk inp pruneRes pivotRes boundRes st = .ok st) ∧
    (∀ (hashPk : Nat → Nat) (inp : StoreBlockInput) pruneRes pivotRes boundRes (st : Store)
        (g : Nat),
        fitsI8 inp.workchain = true → inp.genUtimeRes = .ok g →
        inp.now - g ≤ inp.minProofTtlSec → inp.vset = none →
        storeBlock hashPk inp pruneRes pivotRes boundRes st =
          .error (.anyhow "no current vset found")) ∧
    (∀ (hashPk : Nat → Nat) (inp : StoreBlockInput) pruneRes pivotRes boundRes (st : Store),
        (∃ e, storeBlock hashPk inp pruneRes pivotRes boundRes st = .error e) ∨
        (∃ ops, storeBlockBatch hashPk inp pruneRes pivotRes boundRes = .ok ops ∧
           storeBlock hashPk inp pruneRes pivotRes boundRes st = .ok (applyBatch st ops))) := by
  refine ⟨?_, ?_, ?_, ?_⟩
  · intro hashPk inp pruneRes pivotRes boundRes st h
    simp [storeBlock, storeBlockBatch, h, Except.map, applyBatch]
  · intro hashPk inp pruneRes pivotRes boundRes st g h1 h2 h3
    simp [storeBlock, storeBlockBatch, h1, h2, h3, Except.map, applyBatch]
  · intro hashPk inp pruneRes pivotRes boundRes st g h1 h2 h3 hv
    have hlt : ¬ (inp.minProofTtlSec < inp.now - g) := not_lt.mpr h3
    simp [storeBlock, storeBlockBatch, h1, h2, hv, hlt, Except.map]
  · intro hashPk inp pruneRes pivotRes boundRes st
    cases hb : storeBlockBatch hashPk inp pruneRes pivotRes boundRes with
    | error e => exact Or.inl ⟨e, by simp [storeBlock, hb, Except.map]⟩
    | ok ops => exact Or.inr ⟨ops, rfl, by simp [storeBlock, hb, Except.map]⟩

/-- C7 (witness): a block on workchain 200 is dropped with the store
unchanged, and a fresh block with no installed validator set fails. -/
theorem c7_witness :
    storeBlock (fun x => x) ⟨200, 0, 0, 0, 0, .ok 0, 0, 0, none, false, []⟩
        (.ok ([], leafCell 0)) (.ok (leafCell 0)) (.ok none) (fun _ _ => none) =
      .ok (fun _ _ => none) ∧
    storeBlock (fun x => x) ⟨0, 0, 0, 0, 0, .ok 5, 10, 100, none, false, []⟩
        (.ok ([], leafCell 0)) (.ok (leafCell 0)) (.ok none) (fun _ _ => none) =
      .error (.anyhow "no current vset found") :=
  ⟨c7_store_block_atomicity.1 (fun x => x) ⟨200, 0, 0, 0, 0, .ok 0, 0, 0, none, false, []⟩
      (.ok ([], leafCell 0)) (.ok (leafCell 0)) (.ok none) (fun _ _ => none) rfl,
   c7_store_block_atomicity.2.2.1 (fun x => x) ⟨0, 0, 0, 0, 0, .ok 5, 10, 100, none, false, []⟩
      (.ok ([], leafCell 0)) (.ok (leafCell 0)) (.ok none) (fun _ _ => none) 5
      rfl rfl (by norm_num) rfl⟩

/-! ## Claim C8 -/

theorem applyBatch_frame : ∀ (ops : List BatchOp) (st : Store) (cf : CF) (k : List Nat),
    (∀ op ∈ ops, ¬ opTouches op cf k) → applyBatch st ops cf k = st cf k := by
  intro ops
  induction ops with
  | nil => intro st cf k _; rfl
  | cons op t ih =>
    intro st cf k h
    have h1 : ¬ opTouches op cf k := h op (List.mem_cons_self _ _)
    have h2 : ∀ op' ∈ t, ¬ opTouches op' cf k := fun op' hm => h op' (List.mem_cons_of_mem _ hm)
    show applyBatch (applyOp st op) t cf k = st cf k
    rw [ih (applyOp st op) cf k h2]
    cases op with
    | put cf' k' v =>
      simp only [applyOp]
      rw [if_neg]
      intro hc
      exact h1 ⟨hc.1.symm, hc.2.symm⟩
    | deleteRange cf' lo hi =>
      simp only [applyOp]
      rw [if_neg]
      intro hc
      exact h1 ⟨hc.1.symm, hc.2⟩

theorem filter_isDel_map_put {α : Type} (l : List α) (cf : CF) (key : α → List Nat)
    (val : α → Val) :
    ((l.map fun a => BatchOp.put cf (key a) (val a)).filter isDeleteRange) = [] := by
  induction l with
  | nil => rfl
  | cons a t ih => simp [isDeleteRange, ih]

theorem filter_isDel_gcDeleteOps (b : OutdatedBoundM) :
    (gcDeleteOps b).filter isDeleteRange = gcDeleteOps b := by
  rw [List.filter_eq_self]
  intro op hop
  simp only [gcDeleteOps, List.mem_append, List.mem_cons, List.mem_flatten] at hop
  rcases hop with (h | h | h) | ⟨l, hl, hop⟩
  · rw [h]; rfl
  · rw [h]; rfl
  · exact absurd h (List.not_mem_nil _)
  · simp only [List.mem_map] at hl
    obtain ⟨p, _, rfl⟩ := hl
    simp only [List.mem_cons, List.not_mem_nil, or_false] at hop
    rcases hop with h | h
    · rw [h]; rfl
    · rw [h]; rfl

/-- C8 (counterexample): a GC bound whose block list holds one block id with
workchain 300 (outside `i8`).  The assembled batch's delete-range operations
cover only the `timings` and `transactions` families: `iter_block_keys`
silently skips the block, so no `pivot_blocks`/`pruned_blocks` range is
appended for it although the claim demands one for each block id in
`bound.blocks`. -/
theorem c8_counterexample :
    c8Bound.blocks = [⟨300, 7, 5⟩] ∧ fitsI8 300 = false ∧
    (storeBlockBatch (fun x => x) c8Input (.ok ([(3, 42)], leafCell 9)) (.ok (leafCell 10))
        (.ok (some c8Bound))).map (fun ops => (ops.filter isDeleteRange).map opCf) =
      .ok [CF.timings, CF.transactions] :=
  ⟨rfl, rfl, rfl⟩

/-- C8 (amended): `store_block` appends GC delete-range operations (and a
timings put) only when the block is masterchain and its seqno is divisible by
`STORE_TIMINGS_STEP = 100` — for any other block the batch contains no
delete-range operations and the timings family is untouched; when GC fires
with bound `{remove_until, lt, blocks}` the deleted ranges are exactly:
timings `[0, (remove_until+1) BE)`, transactions `[0, (lt+1) BE ‖ 0×33)`,
and, for each block id in `blocks` **whose workchain fits in `i8`**, the
`pivot_blocks` and `pruned_blocks` ranges
`[wc ‖ shard BE, wc ‖ shard BE ‖ (seqno+1) BE)`; keys untouched by every
operation of the batch are unchanged. -/
theorem c8_gc_delete_ranges :
    (∀ (hashPk : Nat → Nat) (wc : Int) (pfx seqno fh ref g now ttl : Nat) (vs : VSet)
        (sigVals : List (Except Err BlockSig)) (txs : List (Nat × Nat)) (pc pv : Cell)
        (boundRes : Except Err (Option OutdatedBoundM)) (d : List (Nat × Nat)),
        fitsI8 wc = true → ¬(wc = -1 ∧ seqno % 100 = 0) → now - g ≤ ttl →
        (wc = -1 → prepareSignatures hashPk sigVals vs = .ok d) →
        ∃ ops,
          storeBlockBatch hashPk ⟨wc, pfx, seqno, fh, ref, .ok g, now, ttl, some vs, false,
              sigVals⟩ (.ok (txs, pc)) (.ok pv) boundRes = .ok ops ∧
          ops.filter isDeleteRange = [] ∧
          ∀ op ∈ ops, opCf op ≠ .timings) ∧
    (∀ (hashPk : Nat → Nat) (pfx seqno fh ref g now ttl : Nat) (vs : VSet)
        (sigVals : List (Except Err BlockSig)) (txs : List (Nat × Nat)) (pc pv : Cell)
        (bound : OutdatedBoundM) (d : List (Nat × Nat)),
        seqno % 100 = 0 → now - g ≤ ttl →
        prepareSignatures hashPk sigVals vs = .ok d →
        ∃ ops,
          storeBlockBatch hashPk ⟨-1, pfx, seqno, fh, ref, .ok g, now, ttl, some vs, false,
              sigVals⟩ (.ok (txs, pc)) (.ok pv) (.ok (some bound)) = .ok ops ∧
          BatchOp.put .timings (beBytes 4 g) (.timingsVal seqno) ∈ ops ∧
          ops.filter isDeleteRange =
            [.deleteRange .timings (List.replicate 4 0) (beBytes 4 (bound.removeUntil + 1)),
             .deleteRange .transactions (List.replicate 41 0)
               (beBytes 8 (bound.lt + 1) ++ List.replicate 33 0)]
            ++ ((bound.blocks.filterMap (fun bid =>
                  if fitsI8 bid.workchain then
                    some (blockKeyBytes bid.workchain bid.shardPfx 0,
                          blockKeyBytes bid.workchain bid.shardPfx (bid.seqno + 1))
                  else none)).map (fun p =>
                    [BatchOp.deleteRange .pivotBlocks p.1 p.2,
                     BatchOp.deleteRange .prunedBlocks p.1 p.2])).flatten) ∧
    (∀ (st : Store) (ops : List BatchOp) (cf : CF) (k : List Nat),
        (∀ op ∈ ops, ¬ opTouches op cf k) → applyBatch st ops cf k = st cf k) := by
  refine ⟨?_, ?_, fun st ops => applyBatch_frame ops st⟩
  · intro hashPk wc pfx seqno fh ref g now ttl vs sigVals txs pc pv boundRes d
      hfits hgc hfresh hsig
    have hlt : ¬ (ttl < now - g) := not_lt.mpr hfresh
    by_cases hmc : wc = -1
    · have hseq : ¬ (seqno % 100 = 0) := fun h => hgc ⟨hmc, h⟩
      subst hmc
      refine ⟨(txs.map fun al => BatchOp.put .transactions (txKeyBytes al.2 (-1) al.1)
          (.txVal (-1) pfx seqno ref)) ++
        BatchOp.put .prunedBlocks (blockKeyBytes (-1) pfx seqno) (.blockVal fh pc) ::
        BatchOp.put .signatures (beBytes 4 seqno) (.sigVal vs.utimeSince d) ::
        [BatchOp.put .pivotBlocks (blockKeyBytes (-1) pfx seqno) (.blockVal fh pv)],
        ?_, ?_, ?_⟩
      · simp [storeBlockBatch, hlt, hseq, hsig rfl, (by decide : fitsI8 (-1) = true)]
      · simp [List.filter_append, filter_isDel_map_put, isDeleteRange]
      · intro op hop
        simp only [List.mem_append, List.mem_cons, List.mem_map,
          List.not_mem_nil, or_false] at hop
        rcases hop with ⟨a, _, rfl⟩ | h | h | h <;> first
          | (rw [h]; simp [opCf])
          | simp [opCf]
    · have hbeq : (wc == -1) = false := by
        simp [hmc]
      refine ⟨(txs.map fun al => BatchOp.put .transactions (txKeyBytes al.2 wc al.1)
          (.txVal wc pfx seqno ref)) ++
        BatchOp.put .prunedBlocks (blockKeyBytes wc pfx seqno) (.blockVal fh pc) ::
        [BatchOp.put .pivotBlocks (blockKeyBytes wc pfx seqno) (.blockVal fh pv)],
        ?_, ?_, ?_⟩
      · simp [storeBlockBatch, hlt, hfits, hbeq]
      · simp [List.filter_append, filter_isDel_map_put, isDeleteRange]
      · intro op hop
        simp only [List.mem_append, List.mem_cons, List.mem_map,
          List.not_mem_nil, or_false] at hop
        rcases hop with ⟨a, _, rfl⟩ | h | h <;> first
          | (rw [h]; simp [opCf])
          | simp [opCf]
  · intro hashPk pfx seqno fh ref g now ttl vs sigVals txs pc pv bound d hseq hfresh hsig
    have hlt : ¬ (ttl < now - g) := not_lt.mpr hfresh
    refine ⟨BatchOp.put .timings (beBytes 4 g) (.timingsVal seqno) ::
        ((txs.map fun al => BatchOp.put .transactions (txKeyBytes al.2 (-1) al.1)
            (.txVal (-1) pfx seqno ref)) ++
          BatchOp.put .prunedBlocks (blockKeyBytes (-1) pfx seqno) (.blockVal fh pc) ::
          BatchOp.put .signatures (beBytes 4 seqno) (.sigVal vs.utimeSince d) ::
          BatchOp.put .pivotBlocks (blockKeyBytes (-1) pfx seqno) (.blockVal fh pv) ::
          gcDeleteOps bound), ?_, ?_, ?_⟩
    · simp [storeBlockBatch, hseq, hlt, hsig, (by decide : fitsI8 (-1) = true)]
    · exact List.mem_cons_self _ _
    · rw [show (List.filter isDeleteRange (BatchOp.put .timings (beBytes 4 g)
          (.timingsVal seqno) ::
          ((txs.map fun al => BatchOp.put .transactions (txKeyBytes al.2 (-1) al.1)
              (.txVal (-1) pfx seqno ref)) ++
            BatchOp.put .prunedBlocks (blockKeyBytes (-1) pfx seqno) (.blockVal fh pc) ::
            BatchOp.put .signatures (beBytes 4 seqno) (.sigVal vs.utimeSince d) ::
            BatchOp.put .pivotBlocks (blockKeyBytes (-1) pfx seqno) (.blockVal fh pv) ::
            gcDeleteOps bound))) = (gcDeleteOps bound).filter isDeleteRange from ?_]
      · rw [filter_isDel_gcDeleteOps]
        rfl
      · simp [List.filter_append, filter_isDel_map_put, isDeleteRange]

/-- C8 (witness): the amended theorem's GC branch applied at a concrete
masterchain block at seqno 300 with the bound `c8Bound`. -/
theorem c8_witness :
    ∃ ops,
      storeBlockBatch (fun x => x) ⟨-1, mcPfx, 300, 5, 300, .ok 1000, 1000, 100,
          some ⟨500, [⟨9, 1⟩], 1⟩, false, [.ok ⟨9, 123⟩]⟩
          (.ok ([(3, 42)], leafCell 9)) (.ok (leafCell 10)) (.ok (some c8Bound)) = .ok ops ∧
      BatchOp.put .timings (beBytes 4 1000) (.timingsVal 300) ∈ ops ∧
      ops.filter isDeleteRange =
        [.deleteRange .timings (List.replicate 4 0) (beBytes 4 (c8Bound.removeUntil + 1)),
         .deleteRange .transactions (List.replicate 41 0)
           (beBytes 8 (c8Bound.lt + 1) ++ List.replicate 33 0)]
        ++ ((c8Bound.blocks.filterMap (fun bid =>
              if fitsI8 bid.workchain then
                some (blockKeyBytes bid.workchain bid.shardPfx 0,
                      blockKeyBytes bid.workchain bid.shardPfx (bid.seqno + 1))
              else none)).map (fun p =>
                [BatchOp.deleteRange .pivotBlocks p.1 p.2,
                 BatchOp.deleteRange .prunedBlocks p.1 p.2])).flatten :=
  c8_gc_delete_ranges.2.1 (fun x => x) mcPfx 300 5 300 1000 1000 100 ⟨500, [⟨9, 1⟩], 1⟩
    [.ok ⟨9, 123⟩] [(3, 42)] (leafCell 9) (leafCell 10) c8Bound [(0, 123)]
    (by norm_num) (by norm_num) rfl

end TychoL2

namespace TychoL2

theorem alookup_eq_none_iff (m : List (Nat × Nat)) (k : Nat) :
    alookup m k = none ↔ ∀ e ∈ m, e.1 ≠ k := by
  induction m with
  | nil => simp [alookup]
  | cons e t ih =>
    obtain ⟨k', v⟩ := e
    by_cases h : k' = k <;> simp [alookup, h, ih]

theorem alookup_isSome_iff (m : List (Nat × Nat)) (k : Nat) :
    (alookup m k).isSome = true ↔ k ∈ m.map Prod.fst := by
  induction m with
  | nil => simp [alookup]
  | cons e t ih =>
    obtain ⟨k', v⟩ := e
    by_cases h : k' = k <;> simp [alookup, h, ih]
    exact fun hh => (h hh.symm).elim

theorem alookup_mem (m : List (Nat × Nat)) (k v : Nat) (h : alookup m k = some v) :
    (k, v) ∈ m := by
  induction m with
  | nil => simp [alookup] at h
  | cons e t ih =>
    obtain ⟨k', v'⟩ := e
    by_cases hk : k' = k
    · subst hk
      simp [alookup] at h
      subst h
      exact List.mem_cons_self _ _
    · simp [alookup, hk] at h
      exact List.mem_cons_of_mem _ (ih h)

theorem alookup_of_nodup (m : List (Nat × Nat)) (k v : Nat)
    (hnd : (m.map Prod.fst).Nodup) (hm : (k, v) ∈ m) : alookup m k = some v := by
  induction m with
  | nil => cases hm
  | cons e t ih =>
    obtain ⟨k', v'⟩ := e
    rcases List.mem_cons.mp hm with heq | ht
    · obtain ⟨rfl, rfl⟩ := Prod.mk.inj heq.symm
      simp [alookup]
    · have hkmem : k ∈ t.map Prod.fst := List.mem_map.mpr ⟨(k, v), ht, rfl⟩
      have hk : k' ≠ k := by
        intro hh
        subst hh
        exact (List.nodup_cons.mp hnd).1 hkmem
      simp [alookup, hk]
      exact ih (List.nodup_cons.mp hnd).2 ht

theorem alookup_aremove_ne (m : List (Nat × Nat)) (k k' : Nat) (h : k' ≠ k) :
    alookup (aremove m k) k' = alookup m k' := by
  induction m with
  | nil => rfl
  | cons e t ih =>
    obtain ⟨a, b⟩ := e
    by_cases ha : a = k
    · subst ha
      have hne : ¬ (a = k') := fun hh => h (hh.symm.trans rfl)
      simp [aremove, alookup, hne]
    · simp only [aremove, ha, if_false, ite_false]
      by_cases hk' : a = k' <;> simp [alookup, hk', ih]

theorem aremove_sublist (m : List (Nat × Nat)) (k : Nat) :
    List.Sublist (aremove m k) m := by
  induction m with
  | nil => exact List.Sublist.refl _
  | cons e t ih =>
    obtain ⟨a, b⟩ := e
    by_cases ha : a = k
    · simp only [aremove, ha, if_true, ite_true]
      exact List.sublist_cons_self _ _
    · simp only [aremove, ha, if_false, ite_false]
      exact ih.cons₂ _

theorem aremove_keys_nodup (m : List (Nat × Nat)) (k : Nat)
    (h : (m.map Prod.fst).Nodup) : ((aremove m k).map Prod.fst).Nodup :=
  h.sublist ((aremove_sublist m k).map Prod.fst)

theorem filter_not_mem_cons_of_lookup_none (m : List (Nat × Nat)) (k : Nat) (hs : List Nat)
    (h : alookup m k = none) :
    m.filter (fun e => decide (e.1 ∉ (k :: hs))) = m.filter (fun e => decide (e.1 ∉ hs)) := by
  apply List.filter_congr
  intro e he
  have : e.1 ≠ k := (alookup_eq_none_iff m k).mp h e he
  simp [this]

theorem filter_aremove (m : List (Nat × Nat)) (k : Nat) (hs : List Nat)
    (hnd : (m.map Prod.fst).Nodup) :
    (aremove m k).filter (fun e => decide (e.1 ∉ hs)) =
      m.filter (fun e => decide (e.1 ∉ (k :: hs))) := by
  induction m with
  | nil => rfl
  | cons e t ih =>
    obtain ⟨a, b⟩ := e
    obtain ⟨hhead, htail⟩ := List.nodup_cons.mp hnd
    by_cases ha : a = k
    · subst ha
      simp only [aremove, if_true, ite_true]
      have h1 : t.filter (fun e => decide (e.1 ∉ hs)) =
          t.filter (fun e => decide (e.1 ∉ (a :: hs))) := by
        apply List.filter_congr
        intro e he
        have : e.1 ≠ a := by
          intro hh
          exact hhead (List.mem_map.mpr ⟨e, he, hh⟩)
        simp [this]
      rw [h1]
      have : ¬ (a ∉ (a :: hs)) := by simp
      simp [List.filter_cons, this]
    · simp only [aremove, ha, if_false, ite_false]
      rw [List.filter_cons, List.filter_cons]
      have h2 := ih htail
      by_cases hin : a ∈ hs
      · simpa [hin, ha] using h2
      · simpa [hin, ha] using h2

theorem matchedSum_congr (hashPk : Nat → Nat) (vs : List ValidatorDesc)
    (m1 m2 : List (Nat × Nat))
    (h : ∀ v ∈ vs, alookup m1 (hashPk v.publicKey) = alookup m2 (hashPk v.publicKey)) :
    matchedSum hashPk vs m1 = matchedSum hashPk vs m2 := by
  unfold matchedSum
  rw [List.filter_congr (fun v hv => by rw [h v hv])]

theorem anyMatched_congr (hashPk : Nat → Nat) (vs : List ValidatorDesc)
    (m1 m2 : List (Nat × Nat))
    (h : ∀ v ∈ vs, alookup m1 (hashPk v.publicKey) = alookup m2 (hashPk v.publicKey)) :
    anyMatched hashPk vs m1 = anyMatched hashPk vs m2 := by
  unfold anyMatched
  induction vs with
  | nil => rfl
  | cons v rest ih =>
    simp only [List.any_cons]
    rw [h v (List.mem_cons_self _ _), ih (fun v' hv' => h v' (List.mem_cons_of_mem _ hv'))]

theorem matchedSum_eq_zero (hashPk : Nat → Nat) (vs : List ValidatorDesc)
    (m : List (Nat × Nat)) (h : anyMatched hashPk vs m = false) :
    matchedSum hashPk vs m = 0 := by
  unfold anyMatched at h
  unfold matchedSum
  have hnil : vs.filter (fun v => (alookup m (hashPk v.publicKey)).isSome) = [] := by
    rw [List.filter_eq_nil_iff]
    intro a ha
    have := (List.any_eq_false.mp h) a ha
    simpa using this
  rw [hnil]
  rfl

theorem checkLoop_ok_iff (hashPk : Nat → Nat) (verify : Nat → Nat → Bool) :
    ∀ (vs : List ValidatorDesc) (m : List (Nat × Nat)) (w : Nat) (p : Nat × List (Nat × Nat)),
      (m.map Prod.fst).Nodup → (vsHashes hashPk vs).Nodup →
      (checkLoop hashPk verify vs m w = .ok p ↔
        ((∀ v ∈ vs, ∀ sig, alookup m (hashPk v.publicKey) = some sig →
            verify v.publicKey sig = true) ∧
         (anyMatched hashPk vs m = false ∨ w + matchedSum hashPk vs m ≤ U64MAX) ∧
         p = (w + matchedSum hashPk vs m,
              m.filter (fun e => decide (e.1 ∉ vsHashes hashPk vs))))) := by
  intro vs
  induction vs with
  | nil =>
    intro m w p hm hv
    constructor
    · intro h
      refine ⟨by simp, Or.inl rfl, ?_⟩
      cases h
      simp [matchedSum, vsHashes]
    · rintro ⟨-, -, rfl⟩
      simp [checkLoop, matchedSum, vsHashes]
  | cons v rest ih =>
    intro m w p hm hv
    obtain ⟨hvnotin, hvrest⟩ := List.nodup_cons.mp hv
    cases hl : alookup m (hashPk v.publicKey) with
    | none =>
      have hstep : checkLoop hashPk verify (v :: rest) m w =
          checkLoop hashPk verify rest m w := by
        simp [checkLoop, hl]
      rw [hstep, ih m w p hm hvrest]
      have hany : anyMatched hashPk (v :: rest) m = anyMatched hashPk rest m := by
        simp [anyMatched, hl]
      have hsum : matchedSum hashPk (v :: rest) m = matchedSum hashPk rest m := by
        simp [matchedSum, hl]
      have hfil : m.filter (fun e => decide (e.1 ∉ vsHashes hashPk (v :: rest))) =
          m.filter (fun e => decide (e.1 ∉ vsHashes hashPk rest)) :=
        filter_not_mem_cons_of_lookup_none m _ _ hl
      rw [hany, hsum]
      constructor
      · rintro ⟨h1, h2, h3⟩
        refine ⟨?_, h2, by rw [hfil]; exact h3⟩
        intro v' hv' sig hsig
        rcases List.mem_cons.mp hv' with rfl | hv''
        · rw [hl] at hsig
          cases hsig
        · exact h1 v' hv'' sig hsig
      · rintro ⟨h1, h2, h3⟩
        exact ⟨fun v' hv' => h1 v' (List.mem_cons_of_mem _ hv'),
          h2, by rw [← hfil]; exact h3⟩
    | some sig =>
      have hanyT : anyMatched hashPk (v :: rest) m = true := by
        simp [anyMatched, hl]
      have hsumT : matchedSum hashPk (v :: rest) m =
          v.weight + matchedSum hashPk rest m := by
        simp [matchedSum, hl]
      have hvh : vsHashes hashPk (v :: rest) =
          hashPk v.publicKey :: vsHashes hashPk rest := rfl
      cases hver : verify v.publicKey sig with
      | false =>
        have hstep : checkLoop hashPk verify (v :: rest) m w = .error .invalidSignature := by
          simp [checkLoop, hl, hver]
        rw [hstep]
        apply iff_of_false
        · simp
        · rintro ⟨h1, -, -⟩
          have := h1 v (List.mem_cons_self _ _) sig hl
          rw [hver] at this
          cases this
      | true =>
        cases hadd : checkedAdd w v.weight with
        | none =>
          have hgt : U64MAX < w + v.weight := by
            by_contra hle
            simp [checkedAdd, not_lt.mp hle] at hadd
          have hstep : checkLoop hashPk verify (v :: rest) m w = .error .intOverflow := by
            simp [checkLoop, hl, hver, hadd]
          rw [hstep]
          apply iff_of_false
          · simp
          · rintro ⟨-, h2, -⟩
            rw [hanyT, hsumT] at h2
            rcases h2 with h2 | h2
            · cases h2
            · omega
        | some w' =>
          have hw' : w' = w + v.weight ∧ w + v.weight ≤ U64MAX := by
            by_cases hle : w + v.weight ≤ U64MAX
            · simp [checkedAdd, hle] at hadd
              exact ⟨hadd.symm, hle⟩
            · simp [checkedAdd, hle] at hadd
          obtain ⟨rfl, hle⟩ := hw'
          have hstep : checkLoop hashPk verify (v :: rest) m w =
              checkLoop hashPk verify rest (aremove m (hashPk v.publicKey))
                (w + v.weight) := by
            simp [checkLoop, hl, hver, hadd]
          have hcongr : ∀ v' ∈ rest,
              alookup (aremove m (hashPk v.publicKey)) (hashPk v'.publicKey) =
                alookup m (hashPk v'.publicKey) := by
            intro v' hv'
            apply alookup_aremove_ne
            intro hh
            exact hvnotin (List.mem_map.mpr ⟨v', hv', hh⟩)
          rw [hstep, ih (aremove m (hashPk v.publicKey)) (w + v.weight) p
            (aremove_keys_nodup m _ hm) hvrest]
          have hcond : (∀ v' ∈ rest, ∀ sig',
              alookup (aremove m (hashPk v.publicKey)) (hashPk v'.publicKey) = some sig' →
                verify v'.publicKey sig' = true) ↔
              (∀ v' ∈ rest, ∀ sig', alookup m (hashPk v'.publicKey) = some sig' →
                verify v'.publicKey sig' = true) := by
            constructor
            · intro hh v' hv' sig' hs
              exact hh v' hv' sig' (by rw [hcongr v' hv']; exact hs)
            · intro hh v' hv' sig' hs
              rw [hcongr v' hv'] at hs
              exact hh v' hv' sig' hs
          rw [hcond, matchedSum_congr hashPk rest _ m hcongr,
            anyMatched_congr hashPk rest _ m hcongr,
            filter_aremove m (hashPk v.publicKey) (vsHashes hashPk rest) hm,
            hanyT, hsumT, hvh]
          have hzero : anyMatched hashPk rest m = false →
              w + v.weight + matchedSum hashPk rest m ≤ U64MAX := by
            intro hAM
            rw [matchedSum_eq_zero hashPk rest m hAM]
            omega
          constructor
          · rintro ⟨h1, h2, h3⟩
            refine ⟨?_, ?_, ?_⟩
            · intro v' hv' sig' hs
              rcases List.mem_cons.mp hv' with rfl | hv''
              · rw [hl] at hs
                obtain rfl : sig = sig' := Option.some.inj hs
                exact hver
              · exact h1 v' hv'' sig' hs
            · right
              rcases h2 with h2 | h2
              · have := hzero h2
                omega
              · omega
            · rw [h3]
              rw [Nat.add_assoc]
          · rintro ⟨h1, h2, h3⟩
            refine ⟨fun v' hv' => h1 v' (List.mem_cons_of_mem _ hv'), ?_, ?_⟩
            · right
              rcases h2 with h2 | h2
              · cases h2
              · omega
            · rw [h3]
              rw [Nat.add_assoc]

end TychoL2

namespace TychoL2

theorem hmInsert_not_mem (m : List (Nat × Nat)) (k v : Nat) (h : k ∉ m.map Prod.fst) :
    hmInsert m k v = m ++ [(k, v)] := by
  induction m with
  | nil => rfl
  | cons e t ih =>
    obtain ⟨a, b⟩ := e
    have ha : ¬ (a = k) := fun hh => h (by simp [hh])
    have ht : k ∉ t.map Prod.fst := fun hm => h (by simp [hm])
    simp [hmInsert, ha, ih ht]

theorem collectSigs_ok (sigs : List BlockSig) :
    ∀ m : List (Nat × Nat),
      (sigs.map (·.nodeIdShort)).Nodup →
      (∀ s ∈ sigs, s.nodeIdShort ∉ m.map Prod.fst) →
      collectSigs m (sigs.map Except.ok) =
        .ok (m ++ sigs.map (fun s => (s.nodeIdShort, s.sigBits))) := by
  induction sigs with
  | nil =>
    intro m _ _
    simp [collectSigs]
  | cons s rest ih =>
    intro m hnd hdisj
    obtain ⟨hhead, htail⟩ := List.nodup_cons.mp hnd
    have hmem : s.nodeIdShort ∉ m.map Prod.fst := hdisj s (List.mem_cons_self _ _)
    have hstep : collectSigs m ((s :: rest).map Except.ok) =
        collectSigs (hmInsert m s.nodeIdShort s.sigBits) (rest.map Except.ok) := rfl
    rw [hstep, hmInsert_not_mem m _ _ hmem, ih (m ++ [(s.nodeIdShort, s.sigBits)]) htail ?_]
    · simp
    · intro s' hs'
      simp only [List.map_append, List.mem_append, List.map_cons, List.map_nil,
        List.mem_singleton, not_or]
      refine ⟨fun hm => hdisj s' (List.mem_cons_of_mem _ hs') hm, ?_⟩
      intro hh
      exact hhead (List.mem_map.mpr ⟨s', hs', hh⟩)

end TychoL2

namespace TychoL2

theorem m0_keys (sigs : List BlockSig) :
    (sigs.map (fun s => (s.nodeIdShort, s.sigBits))).map Prod.fst =
      sigs.map (·.nodeIdShort) := by
  rw [List.map_map]
  rfl

theorem matchedSum_m0_eq_signedWeight (hashPk : Nat → Nat) (vset : VSet)
    (sigs : List BlockSig) :
    matchedSum hashPk vset.list (sigs.map (fun s => (s.nodeIdShort, s.sigBits))) =
      signedWeight hashPk vset sigs := by
  unfold matchedSum signedWeight
  rw [List.filter_congr ?_]
  intro v _
  by_cases hmem : hashPk v.publicKey ∈ sigs.map (·.nodeIdShort)
  · have h1 : (alookup (sigs.map (fun s => (s.nodeIdShort, s.sigBits)))
        (hashPk v.publicKey)).isSome = true := by
      rw [alookup_isSome_iff, m0_keys]
      exact hmem
    simp [h1, hmem]
  · cases hb : (alookup (sigs.map (fun s => (s.nodeIdShort, s.sigBits)))
        (hashPk v.publicKey)).isSome with
    | true =>
      rw [alookup_isSome_iff, m0_keys] at hb
      exact absurd hb hmem
    | false => simp [hmem]

theorem leftover_m0_eq_nil_iff (hashPk : Nat → Nat) (vs : List ValidatorDesc)
    (sigs : List BlockSig) :
    (sigs.map (fun s => (s.nodeIdShort, s.sigBits))).filter
        (fun e => decide (e.1 ∉ vsHashes hashPk vs)) = [] ↔
      ∀ s ∈ sigs, s.nodeIdShort ∈ vsHashes hashPk vs := by
  rw [List.filter_eq_nil_iff]
  constructor
  · intro h s hs
    have := h (s.nodeIdShort, s.sigBits) (List.mem_map.mpr ⟨s, hs, rfl⟩)
    simpa using this
  · intro h e he
    obtain ⟨s, hs, rfl⟩ := List.mem_map.mp he
    simpa using h s hs

theorem cond1_m0_iff (hashPk : Nat → Nat) (verify : Nat → Nat → Bool)
    (vs : List ValidatorDesc) (sigs : List BlockSig)
    (hd : (sigs.map (·.nodeIdShort)).Nodup) :
    (∀ v ∈ vs, ∀ sg,
        alookup (sigs.map (fun s => (s.nodeIdShort, s.sigBits))) (hashPk v.publicKey) =
          some sg → verify v.publicKey sg = true) ↔
      (∀ s ∈ sigs, ∀ v ∈ vs, hashPk v.publicKey = s.nodeIdShort →
        verify v.publicKey s.sigBits = true) := by
  constructor
  · intro h s hs v hv heq
    have hnd0 : ((sigs.map (fun s => (s.nodeIdShort, s.sigBits))).map Prod.fst).Nodup := by
      rw [m0_keys]
      exact hd
    have hlook := alookup_of_nodup _ s.nodeIdShort s.sigBits hnd0
      (List.mem_map.mpr ⟨s, hs, rfl⟩)
    exact h v hv s.sigBits (by rw [heq]; exact hlook)
  · intro h v hv sg hsg
    obtain ⟨s, hs, heq⟩ := List.mem_map.mp (alookup_mem _ _ _ hsg)
    obtain ⟨h1, h2⟩ := Prod.mk.inj heq
    rw [← h2]
    exact h s hs v hv h1.symm

end TychoL2

namespace TychoL2

theorem checkSignatures_ok_iff (hashPk : Nat → Nat) (verifySig : Nat → Nat → Nat → Bool)
    (buildDataForSign : BlockIdM → Nat) (blockId : BlockIdM)
    (sigs : List BlockSig) (vset : VSet)
    (hd : (sigs.map (·.nodeIdShort)).Nodup)
    (hv : (vsHashes hashPk vset.list).Nodup) :
    checkSignatures hashPk verifySig buildDataForSign blockId (sigs.map Except.ok) vset =
        .ok () ↔
      ((∀ s ∈ sigs, ∃ v ∈ vset.list, hashPk v.publicKey = s.nodeIdShort) ∧
       (∀ s ∈ sigs, ∀ v ∈ vset.list, hashPk v.publicKey = s.nodeIdShort →
          verifySig v.publicKey (buildDataForSign blockId) s.sigBits = true) ∧
       signedWeight hashPk vset sigs * 3 ≤ U64MAX ∧
       vset.totalWeight * 2 ≤ U64MAX ∧
       vset.totalWeight * 2 < signedWeight hashPk vset sigs * 3) := by
  have hcollect : collectSigs [] (sigs.map Except.ok) =
      .ok (sigs.map (fun s => (s.nodeIdShort, s.sigBits))) := by
    have := collectSigs_ok sigs [] hd (by simp)
    simpa using this
  have hkeysNodup : ((sigs.map (fun s => (s.nodeIdShort, s.sigBits))).map Prod.fst).Nodup := by
    rw [m0_keys]
    exact hd
  have hconsIff : (∀ s ∈ sigs, s.nodeIdShort ∈ vsHashes hashPk vset.list) ↔
      (∀ s ∈ sigs, ∃ v ∈ vset.list, hashPk v.publicKey = s.nodeIdShort) := by
    constructor <;> intro h s hs
    · obtain ⟨v, hv', heq⟩ := List.mem_map.mp (h s hs)
      exact ⟨v, hv', heq⟩
    · obtain ⟨v, hv', heq⟩ := h s hs
      exact List.mem_map.mpr ⟨v, hv', heq⟩
  simp only [checkSignatures, hcollect]
  cases hcl : checkLoop hashPk (fun pk sg => verifySig pk (buildDataForSign blockId) sg)
      vset.list (sigs.map (fun s => (s.nodeIdShort, s.sigBits))) 0 with
  | error e =>
    apply iff_of_false
    · simp
    · rintro ⟨hcons, hver, h3, h4, h5⟩
      have hok : checkLoop hashPk
          (fun pk sg => verifySig pk (buildDataForSign blockId) sg)
          vset.list (sigs.map (fun s => (s.nodeIdShort, s.sigBits))) 0 =
          .ok (0 + matchedSum hashPk vset.list
              (sigs.map (fun s => (s.nodeIdShort, s.sigBits))),
            (sigs.map (fun s => (s.nodeIdShort, s.sigBits))).filter
              (fun e => decide (e.1 ∉ vsHashes hashPk vset.list))) := by
        rw [checkLoop_ok_iff hashPk _ vset.list _ 0 _ hkeysNodup hv]
        refine ⟨?_, ?_, rfl⟩
        · rw [cond1_m0_iff hashPk (fun pk sg => verifySig pk (buildDataForSign blockId) sg) vset.list sigs hd]
          exact hver
        · right
          rw [Nat.zero_add, matchedSum_m0_eq_signedWeight]
          omega
      rw [hcl] at hok
      cases hok
  | ok pr =>
    obtain ⟨wres, mres⟩ := pr
    have hret := (checkLoop_ok_iff hashPk
      (fun pk sg => verifySig pk (buildDataForSign blockId) sg)
      vset.list (sigs.map (fun s => (s.nodeIdShort, s.sigBits))) 0 (wres, mres)
      hkeysNodup hv).mp hcl
    obtain ⟨hc1, hc2, hp⟩ := hret
    have hw : wres = 0 + matchedSum hashPk vset.list
        (sigs.map (fun s => (s.nodeIdShort, s.sigBits))) := congrArg Prod.fst hp
    have hm2 : mres = (sigs.map (fun s => (s.nodeIdShort, s.sigBits))).filter
        (fun e => decide (e.1 ∉ vsHashes hashPk vset.list)) := congrArg Prod.snd hp
    subst hw
    subst hm2
    rw [cond1_m0_iff hashPk (fun pk sg => verifySig pk (buildDataForSign blockId) sg) vset.list sigs hd] at hc1
    by_cases hcons : ∀ s ∈ sigs, s.nodeIdShort ∈ vsHashes hashPk vset.list
    · have hnil : (sigs.map (fun s => (s.nodeIdShort, s.sigBits))).filter
          (fun e => decide (e.1 ∉ vsHashes hashPk vset.list)) = [] :=
        (leftover_m0_eq_nil_iff hashPk vset.list sigs).mpr hcons
      rw [hnil, Nat.zero_add, matchedSum_m0_eq_signedWeight]
      by_cases h3 : signedWeight hashPk vset sigs * 3 ≤ U64MAX
      · by_cases h4 : vset.totalWeight * 2 ≤ U64MAX
        · by_cases h5 : vset.totalWeight * 2 < signedWeight hashPk vset sigs * 3
          · simp [checkedMul, h3, h4, h5]
            exact ⟨hconsIff.mp hcons, hc1⟩
          · simp [checkedMul, h3, h4, h5]
        · simp [checkedMul, h3, h4]
      · simp [checkedMul, h3]
    · have hne : ((sigs.map (fun s => (s.nodeIdShort, s.sigBits))).filter
          (fun e => decide (e.1 ∉ vsHashes hashPk vset.list))).isEmpty = false := by
        cases he : ((sigs.map (fun s => (s.nodeIdShort, s.sigBits))).filter
            (fun e => decide (e.1 ∉ vsHashes hashPk vset.list))).isEmpty with
        | true =>
          exact absurd ((leftover_m0_eq_nil_iff hashPk vset.list sigs).mp
            (List.isEmpty_iff.mp he)) hcons
        | false => rfl
      apply iff_of_false
      · intro hcontra
        simp [hcons] at hcontra
      · rintro ⟨hcons', -, -⟩
        exact hcons (hconsIff.mpr hcons')

end TychoL2

namespace TychoL2

/-- C2: `check_signatures` succeeds exactly when every provided signature matches
some validator of the set, every matched signature verifies against the data built
for the block id, neither `signed_weight * 3` nor `total_weight * 2` overflows u64,
and `signed_weight * 3 > total_weight * 2` holds strictly; in particular exact
two-thirds weight is rejected, any failing signature is rejected, and an overflow
of either product yields `Error::IntOverflow`. -/
theorem c2_check_signatures (hashPk : Nat → Nat) (verifySig : Nat → Nat → Nat → Bool)
    (buildDataForSign : BlockIdM → Nat) (blockId : BlockIdM)
    (sigs : List BlockSig) (vset : VSet)
    (hd : (sigs.map (·.nodeIdShort)).Nodup)
    (hv : (vsHashes hashPk vset.list).Nodup) :
    (checkSignatures hashPk verifySig buildDataForSign blockId (sigs.map Except.ok) vset =
        .ok () ↔
      ((∀ s ∈ sigs, ∃ v ∈ vset.list, hashPk v.publicKey = s.nodeIdShort) ∧
       (∀ s ∈ sigs, ∀ v ∈ vset.list, hashPk v.publicKey = s.nodeIdShort →
          verifySig v.publicKey (buildDataForSign blockId) s.sigBits = true) ∧
       signedWeight hashPk vset sigs * 3 ≤ U64MAX ∧
       vset.totalWeight * 2 ≤ U64MAX ∧
       vset.totalWeight * 2 < signedWeight hashPk vset sigs * 3)) ∧
    (signedWeight hashPk vset sigs * 3 = vset.totalWeight * 2 →
      checkSignatures hashPk verifySig buildDataForSign blockId (sigs.map Except.ok) vset ≠
        .ok ()) ∧
    ((∃ s ∈ sigs, ∃ v ∈ vset.list, hashPk v.publicKey = s.nodeIdShort ∧
        verifySig v.publicKey (buildDataForSign blockId) s.sigBits = false) →
      checkSignatures hashPk verifySig buildDataForSign blockId (sigs.map Except.ok) vset ≠
        .ok ()) ∧
    ((∀ s ∈ sigs, ∃ v ∈ vset.list, hashPk v.publicKey = s.nodeIdShort) →
     (∀ s ∈ sigs, ∀ v ∈ vset.list, hashPk v.publicKey = s.nodeIdShort →
        verifySig v.publicKey (buildDataForSign blockId) s.sigBits = true) →
     signedWeight hashPk vset sigs ≤ U64MAX →
     (U64MAX < signedWeight hashPk vset sigs * 3 ∨ U64MAX < vset.totalWeight * 2) →
      checkSignatures hashPk verifySig buildDataForSign blockId (sigs.map Except.ok) vset =
        .error .intOverflow) := by
  have hiff := checkSignatures_ok_iff hashPk verifySig buildDataForSign blockId sigs vset hd hv
  refine ⟨hiff, ?_, ?_, ?_⟩
  · intro heq hok
    obtain ⟨-, -, -, -, h5⟩ := hiff.mp hok
    omega
  · rintro ⟨s, hs, v, hvv, hmatch, hbad⟩ hok
    obtain ⟨-, hver, -⟩ := hiff.mp hok
    have := hver s hs v hvv hmatch
    rw [hbad] at this
    cases this
  · intro hcons hver hWle hovf
    have hcollect : collectSigs [] (sigs.map Except.ok) =
        .ok (sigs.map (fun s => (s.nodeIdShort, s.sigBits))) := by
      have := collectSigs_ok sigs [] hd (by simp)
      simpa using this
    have hkeysNodup : ((sigs.map (fun s => (s.nodeIdShort, s.sigBits))).map Prod.fst).Nodup := by
      rw [m0_keys]
      exact hd
    have hok : checkLoop hashPk
        (fun pk sg => verifySig pk (buildDataForSign blockId) sg)
        vset.list (sigs.map (fun s => (s.nodeIdShort, s.sigBits))) 0 =
        .ok (0 + matchedSum hashPk vset.list
            (sigs.map (fun s => (s.nodeIdShort, s.sigBits))),
          (sigs.map (fun s => (s.nodeIdShort, s.sigBits))).filter
            (fun e => decide (e.1 ∉ vsHashes hashPk vset.list))) := by
      rw [checkLoop_ok_iff hashPk _ vset.list _ 0 _ hkeysNodup hv]
      refine ⟨?_, ?_, rfl⟩
      · rw [cond1_m0_iff hashPk
          (fun pk sg => verifySig pk (buildDataForSign blockId) sg) vset.list sigs hd]
        exact hver
      · right
        rw [Nat.zero_add, matchedSum_m0_eq_signedWeight]
        omega
    have hcons2 : ∀ s ∈ sigs, s.nodeIdShort ∈ vsHashes hashPk vset.list := by
      intro s hs
      obtain ⟨v, hvv, heq⟩ := hcons s hs
      exact List.mem_map.mpr ⟨v, hvv, heq⟩
    have hnil : (sigs.map (fun s => (s.nodeIdShort, s.sigBits))).filter
        (fun e => decide (e.1 ∉ vsHashes hashPk vset.list)) = [] := by
      rw [leftover_m0_eq_nil_iff]
      exact hcons2
    rcases hovf with hovf | hovf
    · have h3 : ¬ (signedWeight hashPk vset sigs * 3 ≤ U64MAX) := not_le.mpr hovf
      simp [checkSignatures, hcollect, hok, hnil, Nat.zero_add,
        matchedSum_m0_eq_signedWeight, checkedMul, h3]
      exact hcons2
    · by_cases h3 : signedWeight hashPk vset sigs * 3 ≤ U64MAX
      · have h4 : ¬ (vset.totalWeight * 2 ≤ U64MAX) := not_le.mpr hovf
        simp [checkSignatures, hcollect, hok, hnil, Nat.zero_add,
          matchedSum_m0_eq_signedWeight, checkedMul, h3, h4]
        exact hcons2
      · simp [checkSignatures, hcollect, hok, hnil, Nat.zero_add,
          matchedSum_m0_eq_signedWeight, checkedMul, h3]
        exact hcons2

theorem c2_witness :
    checkSignatures (fun x => x) (fun _ _ _ => true) (fun _ => 0) ⟨0, 0, 0, 0, 0⟩
        (([⟨5, 50⟩] : List BlockSig).map Except.ok) ⟨0, [⟨5, 1⟩], 1⟩ = .ok () :=
  (c2_check_signatures (fun x => x) (fun _ _ _ => true) (fun _ => 0) ⟨0, 0, 0, 0, 0⟩
      [⟨5, 50⟩] ⟨0, [⟨5, 1⟩], 1⟩ (by decide) (by decide)).1.mpr
    ⟨by decide, by decide, by decide, by decide, by decide⟩

end TychoL2

namespace TychoL2

theorem collectSigsStrict_ok (sigs : List BlockSig) :
    ∀ m : List (Nat × Nat),
      (m.map Prod.fst ++ sigs.map (·.nodeIdShort)).Nodup →
      collectSigsStrict m (sigs.map Except.ok) =
        .ok (m ++ sigs.map (fun s => (s.nodeIdShort, s.sigBits))) := by
  induction sigs with
  | nil =>
    intro m _
    simp [collectSigsStrict]
  | cons s rest ih =>
    intro m hnd
    have hnotin : s.nodeIdShort ∉ m.map Prod.fst := by
      intro hmem
      exact (List.nodup_append.mp hnd).2.2 hmem (List.mem_cons_self _ _)
    have hnone : alookup m s.nodeIdShort = none := by
      rw [alookup_eq_none_iff]
      intro e he heq
      exact hnotin (List.mem_map.mpr ⟨e, he, heq⟩)
    have hstep : collectSigsStrict m ((s :: rest).map Except.ok) =
        collectSigsStrict (m ++ [(s.nodeIdShort, s.sigBits)]) (rest.map Except.ok) := by
      simp [collectSigsStrict, hnone]
    rw [hstep, ih (m ++ [(s.nodeIdShort, s.sigBits)]) ?_]
    · simp
    · simpa [List.append_assoc] using hnd

theorem collectSigsStrict_dup (sigs : List BlockSig) :
    ∀ m : List (Nat × Nat),
      (m.map Prod.fst).Nodup →
      ¬ (m.map Prod.fst ++ sigs.map (·.nodeIdShort)).Nodup →
      collectSigsStrict m (sigs.map Except.ok) = .error .invalidData := by
  induction sigs with
  | nil =>
    intro m hm hbad
    exact absurd (by simpa using hm) hbad
  | cons s rest ih =>
    intro m hm hbad
    cases hl : alookup m s.nodeIdShort with
    | some sig => simp [collectSigsStrict, hl]
    | none =>
      have hnotin : s.nodeIdShort ∉ m.map Prod.fst := by
        intro hmem
        rw [alookup_eq_none_iff] at hl
        obtain ⟨e, he, heq⟩ := List.mem_map.mp hmem
        exact hl e he heq
      have hstep : collectSigsStrict m ((s :: rest).map Except.ok) =
          collectSigsStrict (m ++ [(s.nodeIdShort, s.sigBits)]) (rest.map Except.ok) := by
        simp [collectSigsStrict, hl]
      rw [hstep]
      apply ih
      · rw [List.map_append]
        refine List.Nodup.append hm (by simp) ?_
        intro a ha hb
        simp at hb
        subst hb
        exact hnotin ha
      · intro hgood
        exact hbad (by simpa [List.append_assoc] using hgood)

theorem selectSigs_emptymap (hashPk : Nat → Nat) :
    ∀ (vs : List ValidatorDesc) (i : Nat), selectSigs hashPk i vs [] = ([], []) := by
  intro vs
  induction vs with
  | nil => intro i; rfl
  | cons v rest ih =>
    intro i
    simpa [selectSigs, alookup] using ih (i + 1)

theorem selectSigs_snd (hashPk : Nat → Nat) :
    ∀ (vs : List ValidatorDesc) (i : Nat) (m : List (Nat × Nat)),
      (m.map Prod.fst).Nodup → (vsHashes hashPk vs).Nodup →
      (selectSigs hashPk i vs m).2 =
        m.filter (fun e => decide (e.1 ∉ vsHashes hashPk vs)) := by
  intro vs
  induction vs with
  | nil =>
    intro i m _ _
    simp [selectSigs, vsHashes]
  | cons v rest ih =>
    intro i m hm hv
    have hvh : vsHashes hashPk (v :: rest) = hashPk v.publicKey :: vsHashes hashPk rest := rfl
    rw [hvh] at hv ⊢
    obtain ⟨hhead, htail⟩ := List.nodup_cons.mp hv
    cases hl : alookup m (hashPk v.publicKey) with
    | some sig =>
      have hrec := ih (i + 1) (aremove m (hashPk v.publicKey))
        (aremove_keys_nodup m _ hm) htail
      have hsel : (selectSigs hashPk i (v :: rest) m).2 =
          (selectSigs hashPk (i + 1) rest (aremove m (hashPk v.publicKey))).2 := by
        simp [selectSigs, hl]
      rw [hsel, hrec, filter_aremove m _ _ hm]
    | none =>
      have hsel : (selectSigs hashPk i (v :: rest) m).2 =
          (selectSigs hashPk (i + 1) rest m).2 := by
        simp [selectSigs, hl]
      rw [hsel, ih (i + 1) m hm htail, ← filter_not_mem_cons_of_lookup_none m _ _ hl]

theorem specIndexDict_congr (hashPk : Nat → Nat) :
    ∀ (vs : List ValidatorDesc) (i : Nat) (m m' : List (Nat × Nat)),
      (∀ v ∈ vs, alookup m (hashPk v.publicKey) = alookup m' (hashPk v.publicKey)) →
      specIndexDict hashPk i vs m = specIndexDict hashPk i vs m' := by
  intro vs
  induction vs with
  | nil => intro i m m' _; rfl
  | cons v rest ih =>
    intro i m m' h
    have hh := h v (List.mem_cons_self _ _)
    have ht : ∀ v' ∈ rest, alookup m (hashPk v'.publicKey) = alookup m' (hashPk v'.publicKey) :=
      fun v' hv' => h v' (List.mem_cons_of_mem _ hv')
    cases hl : alookup m' (hashPk v.publicKey) with
    | some sig => simp [specIndexDict, hh, hl, ih (i + 1) m m' ht]
    | none => simp [specIndexDict, hh, hl, ih (i + 1) m m' ht]

theorem selectSigs_fst (hashPk : Nat → Nat) :
    ∀ (vs : List ValidatorDesc) (i : Nat) (m : List (Nat × Nat)),
      (m.map Prod.fst).Nodup → (vsHashes hashPk vs).Nodup → i + vs.length ≤ 65536 →
      (selectSigs hashPk i vs m).1 = specIndexDict hashPk i vs m := by
  intro vs
  induction vs with
  | nil => intro i m _ _ _; rfl
  | cons v rest ih =>
    intro i m hm hv hlen
    have hvh : vsHashes hashPk (v :: rest) = hashPk v.publicKey :: vsHashes hashPk rest := rfl
    rw [hvh] at hv
    obtain ⟨hhead, htail⟩ := List.nodup_cons.mp hv
    have hlen' : i + 1 + rest.length ≤ 65536 := by
      simp only [List.length_cons] at hlen
      omega
    cases hl : alookup m (hashPk v.publicKey) with
    | some sig =>
      have himod : i % 65536 = i := Nat.mod_eq_of_lt (by
        simp only [List.length_cons] at hlen
        omega)
      have hrec := ih (i + 1) (aremove m (hashPk v.publicKey))
        (aremove_keys_nodup m _ hm) htail hlen'
      have hcong : specIndexDict hashPk (i + 1) rest (aremove m (hashPk v.publicKey)) =
          specIndexDict hashPk (i + 1) rest m := by
        apply specIndexDict_congr
        intro v' hv'
        apply alookup_aremove_ne
        intro heq
        exact hhead (heq ▸ List.mem_map.mpr ⟨v', hv', rfl⟩)
      have hsel : (selectSigs hashPk i (v :: rest) m).1 =
          (i % 65536, sig) ::
            (selectSigs hashPk (i + 1) rest (aremove m (hashPk v.publicKey))).1 := by
        simp [selectSigs, hl]
      have hspec : specIndexDict hashPk i (v :: rest) m =
          (i, sig) :: specIndexDict hashPk (i + 1) rest m := by
        simp [specIndexDict, hl]
      rw [hsel, hspec, himod, hrec, hcong]
    | none =>
      have hsel : (selectSigs hashPk i (v :: rest) m).1 =
          (selectSigs hashPk (i + 1) rest m).1 := by
        simp [selectSigs, hl]
      have hspec : specIndexDict hashPk i (v :: rest) m =
          specIndexDict hashPk (i + 1) rest m := by
        simp [specIndexDict, hl]
      rw [hsel, hspec, ih (i + 1) m hm htail hlen']

theorem specIndexDict_keys (hashPk : Nat → Nat) :
    ∀ (vs : List ValidatorDesc) (i : Nat) (m : List (Nat × Nat)),
      (∀ e ∈ specIndexDict hashPk i vs m, i ≤ e.1) ∧
      (specIndexDict hashPk i vs m).Pairwise (fun a b => a.1 < b.1) := by
  intro vs
  induction vs with
  | nil =>
    intro i m
    exact ⟨by simp [specIndexDict], by simp [specIndexDict]⟩
  | cons v rest ih =>
    intro i m
    obtain ⟨hb, hp⟩ := ih (i + 1) m
    cases hl : alookup m (hashPk v.publicKey) with
    | none =>
      have hspec : specIndexDict hashPk i (v :: rest) m =
          specIndexDict hashPk (i + 1) rest m := by
        simp [specIndexDict, hl]
      rw [hspec]
      refine ⟨?_, hp⟩
      intro e he
      have := hb e he
      omega
    | some sig =>
      have hspec : specIndexDict hashPk i (v :: rest) m =
          (i, sig) :: specIndexDict hashPk (i + 1) rest m := by
        simp [specIndexDict, hl]
      rw [hspec]
      refine ⟨?_, ?_⟩
      · intro e he
        rcases List.mem_cons.mp he with rfl | ht
        · exact Nat.le_refl i
        · have := hb e ht
          omega
      · rw [List.pairwise_cons]
        refine ⟨fun e he => ?_, hp⟩
        have := hb e he
        show i < e.1
        omega

theorem specIndexDict_ne_nil (hashPk : Nat → Nat) :
    ∀ (vs : List ValidatorDesc) (i : Nat) (m : List (Nat × Nat)) (v : ValidatorDesc),
      v ∈ vs → (alookup m (hashPk v.publicKey)).isSome = true →
      specIndexDict hashPk i vs m ≠ [] := by
  intro vs
  induction vs with
  | nil =>
    intro i m v hv _
    cases hv
  | cons v' rest ih =>
    intro i m v hv hsome
    cases hl : alookup m (hashPk v'.publicKey) with
    | some sig => simp [specIndexDict, hl]
    | none =>
      have hvrest : v ∈ rest := by
        rcases List.mem_cons.mp hv with rfl | h
        · rw [hl] at hsome
          cases hsome
        · exact h
      simpa [specIndexDict, hl] using ih (i + 1) m v hvrest hsome

end TychoL2

namespace TychoL2

/-- C5: `prepare_signatures` returns the dictionary keyed by validator index
into `vset.list` sorted strictly ascending, whose values are the provided
signatures owned by each validator's node-id-short (assuming the list fits in
u16 indices and validator hashes are distinct); it fails with `InvalidData`
when two input entries share a `node_id_short` or when some input signature
matches no validator of the set, and with `EmptyProof` when the resulting
dictionary is empty (in particular on an empty signature input). -/
theorem c5_prepare_signatures (hashPk : Nat → Nat) (sigs : List BlockSig) (vset : VSet)
    (hlen : vset.list.length ≤ 65536)
    (hv : (vsHashes hashPk vset.list).Nodup) :
    ((sigs.map (·.nodeIdShort)).Nodup →
     (∀ s ∈ sigs, s.nodeIdShort ∈ vsHashes hashPk vset.list) →
     sigs ≠ [] →
     prepareSignatures hashPk (sigs.map Except.ok) vset =
       .ok (specIndexDict hashPk 0 vset.list
         (sigs.map (fun s => (s.nodeIdShort, s.sigBits)))) ∧
     specIndexDict hashPk 0 vset.list (sigs.map (fun s => (s.nodeIdShort, s.sigBits))) ≠ [] ∧
     (specIndexDict hashPk 0 vset.list
         (sigs.map (fun s => (s.nodeIdShort, s.sigBits)))).Pairwise
       (fun a b => a.1 < b.1)) ∧
    (¬ (sigs.map (·.nodeIdShort)).Nodup →
      prepareSignatures hashPk (sigs.map Except.ok) vset = .error .invalidData) ∧
    ((sigs.map (·.nodeIdShort)).Nodup →
     (∃ s ∈ sigs, s.nodeIdShort ∉ vsHashes hashPk vset.list) →
      prepareSignatures hashPk (sigs.map Except.ok) vset = .error .invalidData) ∧
    prepareSignatures hashPk [] vset = .error .emptyProof := by
  refine ⟨?_, ?_, ?_, ?_⟩
  · intro hd hcons hne
    have hm0keys : ((sigs.map (fun s => (s.nodeIdShort, s.sigBits))).map Prod.fst).Nodup := by
      rw [m0_keys]
      exact hd
    have hcollect : collectSigsStrict [] (sigs.map Except.ok) =
        .ok (sigs.map (fun s => (s.nodeIdShort, s.sigBits))) := by
      have := collectSigsStrict_ok sigs [] (by simpa using hd)
      simpa using this
    have hsnd : (selectSigs hashPk 0 vset.list
        (sigs.map (fun s => (s.nodeIdShort, s.sigBits)))).2 = [] := by
      rw [selectSigs_snd hashPk vset.list 0 _ hm0keys hv, leftover_m0_eq_nil_iff]
      exact hcons
    have hfst : (selectSigs hashPk 0 vset.list
        (sigs.map (fun s => (s.nodeIdShort, s.sigBits)))).1 =
        specIndexDict hashPk 0 vset.list (sigs.map (fun s => (s.nodeIdShort, s.sigBits))) :=
      selectSigs_fst hashPk vset.list 0 _ hm0keys hv (by omega)
    have hpair := (specIndexDict_keys hashPk vset.list 0
      (sigs.map (fun s => (s.nodeIdShort, s.sigBits)))).2
    have hnenil : specIndexDict hashPk 0 vset.list
        (sigs.map (fun s => (s.nodeIdShort, s.sigBits))) ≠ [] := by
      obtain ⟨s, hs⟩ := List.exists_mem_of_ne_nil sigs hne
      have hsid : s.nodeIdShort ∈ vsHashes hashPk vset.list := hcons s hs
      obtain ⟨v, hvv, hveq⟩ := List.mem_map.mp hsid
      apply specIndexDict_ne_nil hashPk vset.list 0 _ v hvv
      rw [hveq, alookup_isSome_iff, m0_keys]
      exact List.mem_map.mpr ⟨s, hs, rfl⟩
    refine ⟨?_, hnenil, hpair⟩
    cases hD : specIndexDict hashPk 0 vset.list
        (sigs.map (fun s => (s.nodeIdShort, s.sigBits))) with
    | nil => exact absurd hD hnenil
    | cons d0 ds =>
      have hfstD : (selectSigs hashPk 0 vset.list
          (sigs.map (fun s => (s.nodeIdShort, s.sigBits)))).1 = d0 :: ds := hfst.trans hD
      have hsorted : tryFromSortedSlice (d0 :: ds) = .ok (d0 :: ds) := by
        unfold tryFromSortedSlice
        rw [if_pos (hD ▸ hpair)]
      simp [prepareSignatures, hcollect, hsnd, hfstD, hsorted]
  · intro hnd
    have hcol := collectSigsStrict_dup sigs [] (by simp) (by simpa using hnd)
    simp [prepareSignatures, hcol]
  · intro hd hex
    have hm0keys : ((sigs.map (fun s => (s.nodeIdShort, s.sigBits))).map Prod.fst).Nodup := by
      rw [m0_keys]
      exact hd
    have hcollect : collectSigsStrict [] (sigs.map Except.ok) =
        .ok (sigs.map (fun s => (s.nodeIdShort, s.sigBits))) := by
      have := collectSigsStrict_ok sigs [] (by simpa using hd)
      simpa using this
    have hsnd := selectSigs_snd hashPk vset.list 0
      (sigs.map (fun s => (s.nodeIdShort, s.sigBits))) hm0keys hv
    obtain ⟨s, hs, hnotin⟩ := hex
    have hmemf : (s.nodeIdShort, s.sigBits) ∈
        (sigs.map (fun s => (s.nodeIdShort, s.sigBits))).filter
          (fun e => decide (e.1 ∉ vsHashes hashPk vset.list)) :=
      List.mem_filter.mpr ⟨List.mem_map.mpr ⟨s, hs, rfl⟩, by simpa using hnotin⟩
    cases hc : (sigs.map (fun s => (s.nodeIdShort, s.sigBits))).filter
        (fun e => decide (e.1 ∉ vsHashes hashPk vset.list)) with
    | nil =>
      rw [hc] at hmemf
      cases hmemf
    | cons a l =>
      have hsnd' : (selectSigs hashPk 0 vset.list
          (sigs.map (fun s => (s.nodeIdShort, s.sigBits)))).2 = a :: l := by
        rw [hsnd, hc]
      simp [prepareSignatures, hcollect, hsnd']
  · have hsel := selectSigs_emptymap hashPk vset.list 0
    simp [prepareSignatures, collectSigsStrict, hsel, tryFromSortedSlice]

theorem c5_witness :
    prepareSignatures (fun x => x) [] ⟨0, [⟨5, 1⟩], 1⟩ = .error .emptyProof :=
  (c5_prepare_signatures (fun x => x) [] ⟨0, [⟨5, 1⟩], 1⟩ (by decide) (by decide)).2.2.2

end TychoL2
